import Mathlib

/-!
Verification of the AT-fuzz fuzzing engine against its specification.

The definitions below are a shallow embedding of the Python sources:
byte strings (`bytes` / `bytearray`) become `List Nat` with entries below
256, floating-point quantities become `ℚ`, `random.*` calls consume an
explicit stream of raw draws, and file-system writes become values of an
`Artifact` type returned next to the new state.  Fallible or stateful
code is explicit state passing.
-/

set_option maxHeartbeats 1600000
set_option maxRecDepth 100000

namespace ATFuzz

/-! ### Bit counting (monitor.py / fuzzer.py: `(0xFF ^ b).bit_count()`) -/

/-- Population count of the low 8 bits of a natural number.  For byte
values (below 256) this agrees with Python `int.bit_count()`. -/
def popCnt8 (n : Nat) : Nat :=
  ((List.range 8).map (fun j => if n.testBit j then 1 else 0)).sum

/-- Embedding of the coverage recomputation
`sum((0xFF ^ b).bit_count() for b in virgin)` used by
`ExecutionMonitor._has_new_bits` and by checkpoint load. -/
def countCoverageBits (virgin : List Nat) : Nat :=
  (virgin.map (fun b => popCnt8 (255 ^^^ b))).sum

/-! ### simplify_trace (monitor.py) -/

/-- Embedding of `SIMPLIFY_LOOKUP = bytes([1] + [128] * 255)` applied to a
single byte: index 0 holds 1, indices 1..255 hold 128. -/
def simplifyByte (b : Nat) : Nat :=
  if b = 0 then 1 else 128

/-- Embedding of `ExecutionMonitor._simplify_trace`: element-wise lookup in
`SIMPLIFY_LOOKUP`. -/
def simplifyTrace (trace : List Nat) : List Nat :=
  trace.map simplifyByte

/-! ### has_new_bits (monitor.py) -/

/-- Embedding of the loop body of `ExecutionMonitor._has_new_bits`.  The
Python loop walks the trace; for each byte with
`byte_val != 0 and (virgin[i] & byte_val) != 0` it records a find and
clears the trace bits from the virgin byte (`virgin[i] &= ~byte_val`,
which on byte values equals and-ing with `255 ^^^ byte_val`).  Virgin
bytes beyond the end of the trace are untouched.  A trace longer than the
virgin bitmap would raise `IndexError` in Python; the final case below is
unreachable under the length hypotheses used in the theorems. -/
def hasNewBitsList : List Nat → List Nat → Bool × List Nat
  | [], vs => (false, vs)
  | _ :: _, [] => (false, [])
  | t :: ts, v :: vs =>
    let rest := hasNewBitsList ts vs
    if t ≠ 0 ∧ v &&& t ≠ 0 then
      (true, (v &&& (255 ^^^ t)) :: rest.2)
    else
      (rest.1, v :: rest.2)

/-! ### Execution results (executor.py) -/

/-- Embedding of the `ExecutionResult` TypedDict returned by
`TestExecutor._execute_target`.  `stderr` is a byte string; `coverage` is
`None` or the bitmap bytes; `execTime` stands for the float seconds. -/
structure ExecResult where
  returnCode : Int
  execTime : ℚ
  crashed : Bool
  timeout : Bool
  stderr : List Nat
  coverage : Option (List Nat)
deriving Repr, DecidableEq

/-- Abstract outcome of one spawned run inside
`TestExecutor._execute_target`: the child either exits and is reaped
(`completed` with its `returncode`), exceeds the deadline (`timedOut`),
or the executor itself hits an exception (`excepted`). -/
inductive RunOutcome where
  | completed (rc : Int) (cov : Option (List Nat)) (stderrBytes : List Nat) (elapsed : ℚ)
  | timedOut (cov : Option (List Nat)) (elapsed : ℚ)
  | excepted (msg : List Nat) (elapsed : ℚ)
deriving Repr, DecidableEq

/-- Embedding of the three return paths of `TestExecutor._execute_target`:
on timeout it returns `return_code=-1, crashed=False, timeout=True`; on
completion `crashed = returncode < 0 or returncode >= 128`; on an internal
exception it returns `return_code=-1, crashed=True, timeout=False`. -/
def executeTarget : RunOutcome → ExecResult
  | .completed rc cov err t =>
    { returnCode := rc, execTime := t,
      crashed := decide (rc < 0) || decide (128 ≤ rc),
      timeout := false, stderr := err, coverage := cov }
  | .timedOut cov t =>
    { returnCode := -1, execTime := t, crashed := false,
      timeout := true, stderr := [], coverage := cov }
  | .excepted msg t =>
    { returnCode := -1, execTime := t, crashed := true,
      timeout := false, stderr := msg, coverage := none }

/-! ### Monitor (monitor.py) -/

/-- Embedding of the `MonitorStats` dataclass (the `start_time` string is
omitted: no claim mentions it). -/
structure MonitorStats where
  totalExecs : Nat := 0
  totalCrashes : Nat := 0
  totalHangs : Nat := 0
  savedCrashes : Nat := 0
  savedHangs : Nat := 0
  interestingInputs : Nat := 0
  totalCoverageBits : Nat := 0
deriving Repr, DecidableEq

/-- Files written by the monitor (crash/hang artifacts, their `.json`
siblings, and queue entries), in write order. -/
inductive Artifact where
  | crashFile (execId : Nat) (sig : Nat) (data : List Nat)
  | crashInfo (execId : Nat)
  | hangFile (execId : Nat) (data : List Nat)
  | hangInfo (execId : Nat)
  | queueFile (reason : Nat) (execId : Nat) (data : List Nat)
deriving Repr, DecidableEq

/-- Embedding of the mutable state of `ExecutionMonitor`: the coverage
flag, the three optional virgin bitmaps, the fallback hash sets (modelled
as lists with a membership test) and the statistics. -/
structure MonitorState where
  useCoverage : Bool
  virginBits : Option (List Nat)
  virginCrash : Option (List Nat)
  virginTmout : Option (List Nat)
  crashHashes : List Nat
  hangHashes : List Nat
  stats : MonitorStats
deriving Repr, DecidableEq

/-- Embedding of `ExecutionMonitor.__init__`: all three virgin bitmaps are
`bitmap_size` bytes of `0xFF` when coverage is on and `None` otherwise;
hash sets start empty and statistics start at zero. -/
def initMonitor (useCoverage : Bool) (bitmapSize : Nat) : MonitorState :=
  { useCoverage := useCoverage
    virginBits := if useCoverage then some (List.replicate bitmapSize 255) else none
    virginCrash := if useCoverage then some (List.replicate bitmapSize 255) else none
    virginTmout := if useCoverage then some (List.replicate bitmapSize 255) else none
    crashHashes := []
    hangHashes := []
    stats := {} }

/-- Python truthiness of the `coverage` field: `None` and the empty byte
string are falsy. -/
def covTruthy : Option (List Nat) → Bool
  | none => false
  | some c => !c.isEmpty

/-- Payload hashed by the fallback crash deduplication:
`coverage if coverage else (stderr if stderr else input_data)`. -/
def crashHashData (cov : Option (List Nat)) (stderrBytes input : List Nat) : List Nat :=
  if covTruthy cov then cov.getD [] else if stderrBytes ≠ [] then stderrBytes else input

/-- Payload hashed by the fallback hang deduplication:
`coverage if coverage else input_data`. -/
def hangHashData (cov : Option (List Nat)) (input : List Nat) : List Nat :=
  if covTruthy cov then cov.getD [] else input

/-- Embedding of `ExecutionMonitor._handle_crash`.  `hashFn` stands for
the 64-bit BLAKE2s digest `_compute_hash`; it is kept abstract.  Returns
the interestingness flag, the new state, and the files written. -/
def handleCrash (hashFn : List Nat → Nat) (st : MonitorState)
    (input : List Nat) (res : ExecResult) : Bool × MonitorState × List Artifact :=
  let st1 := { st with stats := { st.stats with totalCrashes := st.stats.totalCrashes + 1 } }
  let save : MonitorState → Bool × MonitorState × List Artifact := fun s =>
    let crashId := s.stats.totalExecs
    let sig := res.returnCode.natAbs
    (true,
     { s with stats := { s.stats with savedCrashes := s.stats.savedCrashes + 1 } },
     [Artifact.crashFile crashId sig input, Artifact.crashInfo crashId])
  if st.virginCrash.isSome ∧ covTruthy res.coverage then
    let simplified := simplifyTrace (res.coverage.getD [])
    let r := hasNewBitsList simplified (st.virginCrash.getD [])
    let st2 := { st1 with virginCrash := some r.2 }
    if r.1 then save st2 else (false, st2, [])
  else
    let h := hashFn (crashHashData res.coverage res.stderr input)
    if h ∈ st.crashHashes then (false, st1, [])
    else save { st1 with crashHashes := h :: st1.crashHashes }

/-- Embedding of `ExecutionMonitor._handle_hang`; structure as for
crashes, against `virgin_tmout` and the hang hash set. -/
def handleHang (hashFn : List Nat → Nat) (st : MonitorState)
    (input : List Nat) (res : ExecResult) : Bool × MonitorState × List Artifact :=
  let st1 := { st with stats := { st.stats with totalHangs := st.stats.totalHangs + 1 } }
  let save : MonitorState → Bool × MonitorState × List Artifact := fun s =>
    let hangId := s.stats.totalExecs
    (true,
     { s with stats := { s.stats with savedHangs := s.stats.savedHangs + 1 } },
     [Artifact.hangFile hangId input, Artifact.hangInfo hangId])
  if st.virginTmout.isSome ∧ covTruthy res.coverage then
    let simplified := simplifyTrace (res.coverage.getD [])
    let r := hasNewBitsList simplified (st.virginTmout.getD [])
    let st2 := { st1 with virginTmout := some r.2 }
    if r.1 then save st2 else (false, st2, [])
  else
    let h := hashFn (hangHashData res.coverage input)
    if h ∈ st.hangHashes then (false, st1, [])
    else save { st1 with hangHashes := h :: st1.hangHashes }

/-- Embedding of `ExecutionMonitor.process_execution`: bump `total_execs`,
then dispatch on crash, timeout, or (with coverage on) new coverage.  The
`total_coverage_bits` recomputation that `_has_new_bits` performs when
called on `virgin_bits` is inlined at this, its only such call site. -/
def processExecution (hashFn : List Nat → Nat) (st : MonitorState)
    (input : List Nat) (res : ExecResult) : Bool × MonitorState × List Artifact :=
  let st0 := { st with stats := { st.stats with totalExecs := st.stats.totalExecs + 1 } }
  if res.crashed then
    handleCrash hashFn st0 input res
  else if res.timeout then
    handleHang hashFn st0 input res
  else if st.useCoverage then
    if covTruthy res.coverage then
      let r := hasNewBitsList (res.coverage.getD []) (st0.virginBits.getD [])
      if st0.virginBits.isSome ∧ r.1 then
        let st1 := { st0 with
          virginBits := some r.2,
          stats := { st0.stats with
            totalExecs := st0.stats.totalExecs,
            totalCoverageBits := countCoverageBits r.2,
            interestingInputs := st0.stats.interestingInputs + 1 } }
        (true, st1, [Artifact.queueFile 0 st1.stats.totalExecs input])
      else
        (false, st0, [])
    else
      (false, st0, [])
  else
    (false, st0, [])

/-- Fold of `process_execution` over a sequence of (input, result)
pairs: the monitor observed over a run. -/
def runMonitor (hashFn : List Nat → Nat) (st : MonitorState) :
    List (List Nat × ExecResult) → MonitorState
  | [] => st
  | p :: ps => runMonitor hashFn (processExecution hashFn st p.1 p.2).2.1 ps

/-! ### Checkpoint load (fuzzer.py `_load_checkpoint`, checkpoint.py `CheckpointManager.load`) -/

/-- Runtime counters stored in a checkpoint (`CheckpointRuntime`). -/
structure CkRuntime where
  startTime : ℚ
  lastSnapshotTime : ℚ
  lastCoverage : Nat
  lastExecs : Nat
deriving Repr, DecidableEq

/-- Monitor slice of a checkpoint: the stats fields named in
`CHECKPOINT_MONITOR_STATS_FIELDS` (note: `total_coverage_bits` is not
among them) and the three base64 bitmaps, modelled as decoded bytes. -/
structure CkMonitor where
  totalExecs : Nat
  totalCrashes : Nat
  totalHangs : Nat
  savedCrashes : Nat
  savedHangs : Nat
  interestingInputs : Nat
  virginBits : Option (List Nat)
  virginCrash : Option (List Nat)
  virginTmout : Option (List Nat)
deriving Repr, DecidableEq

/-- Checkpoint payload slice relevant to the resumption claims. -/
structure Checkpoint where
  version : Int
  runtime : CkRuntime
  monitor : CkMonitor
deriving Repr, DecidableEq

/-- Engine-side state touched by `_load_checkpoint`. -/
structure FuzzerSlice where
  startTime : ℚ
  lastSnapshotTime : ℚ
  lastCoverage : Nat
  lastExecs : Nat
  monitor : MonitorState
deriving Repr, DecidableEq

/-- Version constant `CHECKPOINT_VERSION = 2`. -/
def CHECKPOINT_VERSION : Int := 2

/-- Restores one optional virgin bitmap field: the checkpoint value when
present, otherwise the field is left as it was (with a warning printed). -/
def restoreBitmap (old : Option (List Nat)) : Option (List Nat) → Option (List Nat)
  | none => old
  | some bs => some bs

/-- Embedding of the restore path of `_load_checkpoint` on an existing,
version-accepted checkpoint: rebase `start_time` so elapsed time is
preserved (`new_start = now - (old_last_snapshot - old_start)`), reset
the snapshot clock, restore the monitor stats fields, restore the virgin
bitmaps byte-for-byte, and recompute `total_coverage_bits` from the
restored `virgin_bits` instead of trusting any stored value. -/
def applyCheckpoint (now : ℚ) (ck : Checkpoint) (fz : FuzzerSlice) : FuzzerSlice :=
  let vb := restoreBitmap fz.monitor.virginBits ck.monitor.virginBits
  let vc := restoreBitmap fz.monitor.virginCrash ck.monitor.virginCrash
  let vt := restoreBitmap fz.monitor.virginTmout ck.monitor.virginTmout
  let withCov := fz.monitor.useCoverage
  { startTime := now - (ck.runtime.lastSnapshotTime - ck.runtime.startTime)
    lastSnapshotTime := now
    lastCoverage := ck.runtime.lastCoverage
    lastExecs := ck.runtime.lastExecs
    monitor := { fz.monitor with
      virginBits := if withCov then vb else fz.monitor.virginBits
      virginCrash := if withCov then vc else fz.monitor.virginCrash
      virginTmout := if withCov then vt else fz.monitor.virginTmout
      stats := { fz.monitor.stats with
        totalExecs := ck.monitor.totalExecs
        totalCrashes := ck.monitor.totalCrashes
        totalHangs := ck.monitor.totalHangs
        savedCrashes := ck.monitor.savedCrashes
        savedHangs := ck.monitor.savedHangs
        interestingInputs := ck.monitor.interestingInputs
        totalCoverageBits :=
          if withCov then countCoverageBits ((restoreBitmap fz.monitor.virginBits ck.monitor.virginBits).getD [])
          else fz.monitor.stats.totalCoverageBits } } }

/-- Embedding of the control flow of `_load_checkpoint` under
`--resume-from`: a missing file prints a diagnostic and returns, an
out-of-range version prints a diagnostic and returns, and only otherwise
is the state restored.  The Python function has no `sys.exit` call on any
path, so the embedding never produces `Except.error`; an `error` value
would correspond to terminating the process with that exit status. -/
def loadCheckpointStep (now : ℚ) (file : Option Checkpoint) (fz : FuzzerSlice) :
    Except Int FuzzerSlice :=
  match file with
  | none => Except.ok fz
  | some ck =>
    if ck.version < 1 ∨ CHECKPOINT_VERSION < ck.version then Except.ok fz
    else Except.ok (applyCheckpoint now ck fz)

/-! ### Mutator (src/components/mutator.py) -/

/-- Raw stream of pseudo-random draws.  Each `random.randint(a, b)` (and
each `random.choice` over a list) consumes one draw, reduced into range
by `a + draw % (b - a + 1)`; quantifying over all streams quantifies over
all outcomes of the random number generator. -/
def nextDraw : List Nat → Nat × List Nat
  | [] => (0, [])
  | d :: ds => (d, ds)

/-- Reduction of one raw draw to the inclusive range `[lo, hi]`, matching
the support of `random.randint(lo, hi)`. -/
def drawRange (lo hi draw : Nat) : Nat :=
  lo + draw % (hi + 1 - lo)

/-- The signed interesting value tables `INTERESTING_8/16/32` from
mutator.py. -/
def INTERESTING_8 : List Int := [-128, -1, 0, 1, 16, 32, 64, 100, 127]

/-- 16-bit boundary table. -/
def INTERESTING_16 : List Int :=
  [-32768, -129, 128, 255, 256, 512, 1000, 1024, 4096, 32767]

/-- 32-bit boundary table. -/
def INTERESTING_32 : List Int :=
  [-2147483648, -100663046, -32769, 32768, 65535, 65536, 100663045, 2147483647]

/-- Little-endian two's-complement encoding of `struct.pack` with a given
byte width. -/
def packLE (width : Nat) (v : Int) : List Nat :=
  (List.range width).map (fun k => ((v % (2 ^ (8 * width))).toNat / 2 ^ (8 * k)) % 256)

/-- Embedding of `Mutator.bit_flip` with one flip (`flip_count=1`, the
only count used by havoc): guard the empty input, then flip one random
bit. -/
def bitFlip (data : List Nat) (rng : List Nat) : List Nat × List Nat :=
  if data.length = 0 then (data, rng)
  else
    let (d, rng1) := nextDraw rng
    let bitPos := drawRange 0 (data.length * 8 - 1) d
    let byteIdx := bitPos / 8
    let bitIdx := bitPos % 8
    (data.set byteIdx ((data.getD byteIdx 0) ^^^ (1 <<< bitIdx)), rng1)

/-- Embedding of `Mutator.byte_flip` with one flip: XOR one random byte
with 0xFF. -/
def byteFlip (data : List Nat) (rng : List Nat) : List Nat × List Nat :=
  if data.length = 0 then (data, rng)
  else
    let (d, rng1) := nextDraw rng
    let idx := drawRange 0 (data.length - 1) d
    (data.set idx ((data.getD idx 0) ^^^ 255), rng1)

/-- Splice of a packed window into `data` at `idx`: Python
`data[idx:idx+w] = packed`. -/
def overwriteAt (data : List Nat) (idx : Nat) (packed : List Nat) : List Nat :=
  (data.take idx) ++ packed ++ (data.drop (idx + packed.length))

/-- Embedding of `Mutator.interesting_values` (newest variant): guard the
empty input, pick a width class, and overwrite an in-range window with a
little-endian boundary value. -/
def interestingValues (data : List Nat) (rng : List Nat) : List Nat × List Nat :=
  if data.length = 0 then (data, rng)
  else
    let c := (nextDraw rng).1
    let rng1 := (nextDraw rng).2
    let choice := drawRange 0 2 c
    if choice = 0 ∧ 1 ≤ data.length then
      let idx := drawRange 0 (data.length - 1) (nextDraw rng1).1
      let rng2 := (nextDraw rng1).2
      let val := INTERESTING_8.getD (drawRange 0 (INTERESTING_8.length - 1) (nextDraw rng2).1) 0
      (data.set idx (val % 256).toNat, (nextDraw rng2).2)
    else if choice = 1 ∧ 2 ≤ data.length then
      let idx := drawRange 0 (data.length - 2) (nextDraw rng1).1
      let rng2 := (nextDraw rng1).2
      let tbl := INTERESTING_8 ++ INTERESTING_16
      let val := tbl.getD (drawRange 0 (tbl.length - 1) (nextDraw rng2).1) 0
      (overwriteAt data idx (packLE 2 val), (nextDraw rng2).2)
    else if 4 ≤ data.length then
      let idx := drawRange 0 (data.length - 4) (nextDraw rng1).1
      let rng2 := (nextDraw rng1).2
      let tbl := INTERESTING_8 ++ INTERESTING_16 ++ INTERESTING_32
      let val := tbl.getD (drawRange 0 (tbl.length - 1) (nextDraw rng2).1) 0
      (overwriteAt data idx (packLE 4 val), (nextDraw rng2).2)
    else (data, rng1)

/-- Embedding of `Mutator.insert`: guard against gross runaway
(100 KB), then insert one random byte at a random position. -/
def insertMut (data : List Nat) (rng : List Nat) : List Nat × List Nat :=
  if 1024 * 100 ≤ data.length then (data, rng)
  else
    let (dp, rng1) := nextDraw rng
    let pos := drawRange 0 data.length dp
    let (db, rng2) := nextDraw rng1
    let byte := drawRange 0 255 db
    (data.take pos ++ byte :: data.drop pos, rng2)

/-- Embedding of `Mutator.delete`: guard the empty input, then remove one
random byte. -/
def deleteMut (data : List Nat) (rng : List Nat) : List Nat × List Nat :=
  if data.length = 0 then (data, rng)
  else
    let (dp, rng1) := nextDraw rng
    let pos := drawRange 0 (data.length - 1) dp
    (data.take pos ++ data.drop (pos + 1), rng1)

/-- Embedding of `Mutator.arithmetic`: guard the empty input, then add or
subtract a random value in `[1, 35]` to one random byte, mod 256. -/
def arithmeticMut (data : List Nat) (rng : List Nat) : List Nat × List Nat :=
  if data.length = 0 then (data, rng)
  else
    let (di, rng1) := nextDraw rng
    let idx := drawRange 0 (data.length - 1) di
    let (dv, rng2) := nextDraw rng1
    let val := drawRange 1 35 dv
    let (dc, rng3) := nextDraw rng2
    let add := drawRange 0 1 dc = 0
    let old := data.getD idx 0
    let new := if add then (old + val) % 256 else (old + 256 - val % 256) % 256
    (data.set idx new, rng3)

/-- Embedding of `Mutator.splice`: one empty side returns the other,
otherwise a random prefix of the first is glued to a random suffix of the
second. -/
def splice (data1 data2 : List Nat) (rng : List Nat) : List Nat × List Nat :=
  if data1.length = 0 then (data2, rng)
  else if data2.length = 0 then (data1, rng)
  else
    let (d1, rng1) := nextDraw rng
    let sp1 := drawRange 0 data1.length d1
    let (d2, rng2) := nextDraw rng1
    let sp2 := drawRange 0 data2.length d2
    (data1.take sp1 ++ data2.drop sp2, rng2)

/-- The six basic operators havoc chooses from, in the order of its
`mutations` list. -/
def havocStep (choice : Nat) (data : List Nat) (rng : List Nat) : List Nat × List Nat :=
  if choice = 0 then bitFlip data rng
  else if choice = 1 then byteFlip data rng
  else if choice = 2 then interestingValues data rng
  else if choice = 3 then insertMut data rng
  else if choice = 4 then deleteMut data rng
  else arithmeticMut data rng

/-- Embedding of `Mutator.havoc`: repeat `iterations` times, each time
drawing a random operator index and applying that operator to the
current buffer. -/
def havoc (data : List Nat) (iterations : Nat) (rng : List Nat) : List Nat × List Nat :=
  match iterations with
  | 0 => (data, rng)
  | n + 1 =>
    let (dc, rng1) := nextDraw rng
    let choice := drawRange 0 5 dc
    let r := havocStep choice data rng1
    havoc r.1 n r.2

/-! ### Scheduler (src/components/scheduler.py) -/

/-- Embedding of the `Seed` dataclass.  `sortIndex` is the only field
participating in comparisons (`field(compare=False)` on all others) and
is kept equal to `-energy` by `__post_init__`/`update_energy`. -/
structure Seed where
  sortIndex : ℚ
  data : List Nat
  execCount : Nat
  coverageBits : ℚ
  execTime : ℚ
  energy : ℚ
deriving Repr, DecidableEq, Inhabited

/-- The `Seed.__lt__` generated by `@dataclass(order=True)`: comparison
of the `sort_index` fields. -/
def seedLt (a b : Seed) : Bool :=
  decide (a.sortIndex < b.sortIndex)

/-- CPython `heapq._siftdown` (heap, startpos=0, pos): bubble `newitem`
up from `pos` towards the root while it is smaller than its parent.
The entry at `pos` is conceptually a hole; `newitem` is written at the
final resting place. -/
def siftdownLoop (heap : List Seed) (pos : Nat) (newitem : Seed) : List Seed :=
  if 0 < pos then
    let parentpos := (pos - 1) / 2
    let parent := heap.getD parentpos default
    if seedLt newitem parent then
      siftdownLoop (heap.set pos parent) parentpos newitem
    else heap.set pos newitem
  else heap.set pos newitem
termination_by pos
decreasing_by exact Nat.lt_of_le_of_lt (Nat.div_le_self _ 2) (by omega)

/-- CPython `heapq._siftup` main loop: move the hole at `pos` down along
the smaller-child path to a leaf, then place `newitem` in the hole and
let `_siftdown` bubble it back up. -/
def siftupLoop (heap : List Seed) (pos : Nat) (newitem : Seed) : List Seed :=
  let endpos := heap.length
  let childpos := 2 * pos + 1
  if h : childpos < endpos then
    let rightpos := childpos + 1
    let c :=
      if rightpos < endpos ∧ ¬ seedLt (heap.getD childpos default) (heap.getD rightpos default)
      then rightpos else childpos
    siftupLoop (heap.set pos (heap.getD c default)) c newitem
  else
    siftdownLoop (heap.set pos newitem) pos newitem
termination_by heap.length - pos
decreasing_by
  simp only [List.length_set]
  split
  · omega
  · omega

/-- CPython `heapq.heappush`: append, then sift the new item down to its
place (towards the root). -/
def heappush (heap : List Seed) (item : Seed) : List Seed :=
  siftdownLoop (heap ++ [item]) heap.length item

/-- CPython `heapq.heappop`: pop the last element; if the heap is still
non-empty, move the last element to the root and sift up.  The scheduler
only calls this on non-empty heaps; `none` stands for Python's
`IndexError` on an empty heap. -/
def heappop (heap : List Seed) : Option (Seed × List Seed) :=
  match heap with
  | [] => none
  | x :: xs =>
    let lastelt := (x :: xs).getLast (List.cons_ne_nil x xs)
    let rest := (x :: xs).dropLast
    match rest with
    | [] => some (lastelt, [])
    | r :: rs =>
      some (r, siftupLoop ((r :: rs).set 0 lastelt) 0 lastelt)

/-- Aggregates owned by `SeedScheduler`: the heap list, the running
total of seed execution times, and the running total of coverage bits. -/
structure SchedState where
  seeds : List Seed
  totalExecTime : ℚ
  totalCoverage : ℚ
deriving Repr, DecidableEq

/-- Embedding of `SeedScheduler.__init__`. -/
def initSched : SchedState :=
  { seeds := [], totalExecTime := 0, totalCoverage := 0 }

/-- Speed band of `_calculate_energy` ("1. Adjust score based on
execution speed"): the absolute score before the coverage factor, with
the band comparisons written exactly as in the source
(`seed.exec_time * 0.1 > avg_exec_us` etc.); skipped when the average is
not positive. -/
def speedScore (avgExec t : ℚ) : ℚ :=
  if 0 < avgExec then
    if avgExec < t * (1 / 10) then 10
    else if avgExec < t * (1 / 4) then 25
    else if avgExec < t * (1 / 2) then 50
    else if avgExec < t * (3 / 4) then 75
    else if t * 4 < avgExec then 300
    else if t * 3 < avgExec then 200
    else if t * 2 < avgExec then 150
    else 100
  else 100

/-- Coverage band of `_calculate_energy` ("2. Adjust score based on
bitmap size"): the multiplicative factor applied to the speed score;
skipped (factor 1) when the average is not positive. -/
def covFactor (avgCov cv : ℚ) : ℚ :=
  if 0 < avgCov then
    if avgCov < cv * (3 / 10) then 3
    else if avgCov < cv * (1 / 2) then 2
    else if avgCov < cv * (3 / 4) then 3 / 2
    else if cv * 3 < avgCov then 1 / 4
    else if cv * 2 < avgCov then 1 / 2
    else if cv * (3 / 2) < avgCov then 3 / 4
    else 1
  else 1

/-- Decay of `_calculate_energy` ("3. Adjust score based on handicap"):
division by `1 + 0.2 * exec_count`, skipped at count zero. -/
def decayScore (perf : ℚ) (execCount : Nat) : ℚ :=
  if 0 < execCount then perf / (1 + (1 / 5) * execCount) else perf

/-- Embedding of `SeedScheduler._calculate_energy` as a pure value: the
AFL-style score starting at 100, adjusted by the speed band, multiplied
by the coverage band, decayed by `1 + 0.2 * exec_count`, and capped above
by `min(_, 10000.0)`.  The running averages divide by `len(self.seeds) + 1`
(the seed being scored is outside the heap at call time); with an empty
heap the seed's own fields serve as the averages. -/
def calcEnergyValue (st : SchedState) (seed : Seed) : ℚ :=
  let numSeeds := st.seeds.length
  let avgExec : ℚ := if numSeeds = 0 then seed.execTime else st.totalExecTime / (numSeeds + 1)
  let avgCov : ℚ := if numSeeds = 0 then seed.coverageBits else st.totalCoverage / (numSeeds + 1)
  min (decayScore (speedScore avgExec seed.execTime * covFactor avgCov seed.coverageBits)
    seed.execCount) 10000

/-- The seed after `_calculate_energy(seed)`, i.e. after
`seed.update_energy(perf_score)`. -/
def calcEnergy (st : SchedState) (seed : Seed) : Seed :=
  let e := calcEnergyValue st seed
  { seed with energy := e, sortIndex := -e }

/-- Embedding of `SeedScheduler.add_seed`: build the seed (defaults
`exec_count=0`; `__post_init__` sets `sort_index = -energy` from the
default energy 1.0), add its time and coverage to the running totals,
compute its energy, and push it on the heap. -/
def addSeed (st : SchedState) (d : List Nat) (coverageBits : ℚ) (execTime : ℚ) : SchedState :=
  let seed : Seed :=
    { sortIndex := -1, data := d, execCount := 0,
      coverageBits := coverageBits, execTime := execTime, energy := 1 }
  let st1 := { st with
    totalExecTime := st.totalExecTime + execTime,
    totalCoverage := st.totalCoverage + coverageBits }
  let seed1 := calcEnergy st1 seed
  { st1 with seeds := heappush st1.seeds seed1 }

/-- Embedding of `SeedScheduler.select_next`: pop the top of the heap,
increment its `exec_count`, recompute its energy against the remaining
heap, push it back, and return it. -/
def selectNext (st : SchedState) : Option (Seed × SchedState) :=
  match heappop st.seeds with
  | none => none
  | some (seed, rest) =>
    let stRest := { st with seeds := rest }
    let seed1 := calcEnergy stRest { seed with execCount := seed.execCount + 1 }
    some (seed1, { st with seeds := heappush rest seed1 })

/-- One scheduler request: an `add_seed` call or a `select_next` call. -/
inductive SchedOp where
  | add (d : List Nat) (coverageBits : ℚ) (execTime : ℚ)
  | select
deriving Repr

/-- Applies one scheduler request. -/
def schedStep (st : SchedState) : SchedOp → SchedState
  | .add d cb et => addSeed st d cb et
  | .select => match selectNext st with
    | none => st
    | some (_, st1) => st1

/-- Replays a sequence of scheduler requests from the initial state. -/
def runSched (ops : List SchedOp) : SchedState :=
  ops.foldl schedStep initSched

/-! ### Specification-level predicates -/

/-- Pointwise bit containment between two virgin bitmaps: every set bit
of the newer bitmap was already set in the older one ("set bits never
increase"). -/
def bitsLE (v2 v1 : List Nat) : Prop :=
  ∀ i j, (v2.getD i 0).testBit j = true → (v1.getD i 0).testBit j = true

/-- Lift of `bitsLE` to the optional virgin bitmaps of the monitor. -/
def virginLE : Option (List Nat) → Option (List Nat) → Prop
  | some v2, some v1 => bitsLE v2 v1
  | none, none => True
  | _, _ => False

/-- Consistency of the cached statistic with the bitmap it is derived
from: `total_coverage_bits` equals the recomputation from `virgin_bits`
(and stays 0 while there is no bitmap). -/
def statOk (st : MonitorState) : Prop :=
  st.stats.totalCoverageBits = (st.virginBits.map countCoverageBits).getD 0

/-- Binary-heap shape of the scheduler queue under the CPython `heapq`
layout: every non-root entry is not smaller than its parent in
`sort_index` order (so not larger in energy). -/
def isHeap (l : List Seed) : Prop :=
  ∀ i, 0 < i → i < l.length →
    (l.getD ((i - 1) / 2) default).sortIndex ≤ (l.getD i default).sortIndex

/-- Loop invariant of the bubble-up pass: the array is a heap except
that the edge from the parent of `pos` into `pos` is not required. -/
def heapExceptUp (w : List Seed) (pos : Nat) : Prop :=
  ∀ i, 0 < i → i < w.length → i ≠ pos →
    (w.getD ((i - 1) / 2) default).sortIndex ≤ (w.getD i default).sortIndex

/-- Bridge invariant of both sift passes: the parent of `pos` already
bounds the children of `pos`. -/
def bridgeAt (w : List Seed) (pos : Nat) : Prop :=
  ∀ c, (c = 2 * pos + 1 ∨ c = 2 * pos + 2) → c < w.length → 0 < pos →
    (w.getD ((pos - 1) / 2) default).sortIndex ≤ (w.getD c default).sortIndex

/-- Loop invariant of the hole-down pass: the array is a heap except on
edges incident to the hole at `pos`. -/
def heapExceptAt (w : List Seed) (pos : Nat) : Prop :=
  ∀ i, 0 < i → i < w.length → i ≠ pos → (i - 1) / 2 ≠ pos →
    (w.getD ((i - 1) / 2) default).sortIndex ≤ (w.getD i default).sortIndex

/-- Well-formedness of every seed stored by the scheduler: positive
energy capped at 10000, with `sort_index` equal to `-energy`. -/
def seedOk (s : Seed) : Prop :=
  0 < s.energy ∧ s.energy ≤ 10000 ∧ s.sortIndex = -s.energy

/-- Reachability invariant of the scheduler state: heap shape, seed
well-formedness, and the closed-form energy of a solitary seed. -/
def schedInv (st : SchedState) : Prop :=
  isHeap st.seeds ∧ (∀ s ∈ st.seeds, seedOk s) ∧
  (∀ s, st.seeds = [s] → s.energy = 100 / (1 + (s.execCount : ℚ) / 5))

/-- Selector for crash input files among written artifacts. -/
def isCrashFile : Artifact → Bool
  | .crashFile _ _ _ => true
  | _ => false

/-! ### Concrete sample values used by witnesses and counterexamples -/

/-- Fresh engine slice with coverage on and a 2-byte bitmap. -/
def sampleFuzzer : FuzzerSlice where
  startTime := 0
  lastSnapshotTime := 0
  lastCoverage := 0
  lastExecs := 0
  monitor := initMonitor true 2

/-- Fresh engine slice with coverage off. -/
def sampleFuzzerBlind : FuzzerSlice where
  startTime := 0
  lastSnapshotTime := 0
  lastCoverage := 0
  lastExecs := 0
  monitor := initMonitor false 2

/-- Valid version-2 checkpoint with one observed coverage bit in
`virgin_bits`. -/
def sampleCheckpoint : Checkpoint where
  version := 2
  runtime := { startTime := 3, lastSnapshotTime := 7, lastCoverage := 1, lastExecs := 5 }
  monitor :=
    { totalExecs := 5
      totalCrashes := 0
      totalHangs := 0
      savedCrashes := 0
      savedHangs := 0
      interestingInputs := 1
      virginBits := some [254, 255]
      virginCrash := some [255, 255]
      virginTmout := some [255, 255] }

/-- Checkpoint carrying the unsupported version 9999. -/
def sampleBadVersion : Checkpoint where
  version := 9999
  runtime := { startTime := 0, lastSnapshotTime := 0, lastCoverage := 0, lastExecs := 0 }
  monitor :=
    { totalExecs := 0
      totalCrashes := 0
      totalHangs := 0
      savedCrashes := 0
      savedHangs := 0
      interestingInputs := 0
      virginBits := none
      virginCrash := none
      virginTmout := none }

/-- Crashing execution result with the 2-byte coverage trace `[0, 5]`,
as produced by a SIGSEGV run. -/
def sampleCrashResult : ExecResult where
  returnCode := -11
  execTime := 0
  crashed := true
  timeout := false
  stderr := []
  coverage := some [0, 5]

/-- Clean execution result without coverage. -/
def sampleCleanResult : ExecResult where
  returnCode := 0
  execTime := 0
  crashed := false
  timeout := false
  stderr := []
  coverage := none

/-- The sole seed of a one-seed scheduler after `n` selections: with an
empty remaining heap both running averages fall back to the seed's own
fields, every band is neutral, and the energy is exactly
`100 / (1 + 0.2 n)`. -/
def soloSeed (n : Nat) : Seed where
  sortIndex := -(100 / (1 + (n : ℚ) / 5))
  data := [7]
  execCount := n
  coverageBits := 0
  execTime := 0
  energy := 100 / (1 + (n : ℚ) / 5)

/-- Scheduler state holding only `soloSeed n`. -/
def soloState (n : Nat) : SchedState where
  seeds := [soloSeed n]
  totalExecTime := 0
  totalCoverage := 0

/-! ## Theorems -/

/-! ### List access helpers -/

theorem getD_set_self {α : Type} {l : List α} {i : Nat} {x d : α} (h : i < l.length) :
    (l.set i x).getD i d = x := by
  simp [List.getD_eq_getElem?_getD, List.getElem?_set_self h]

theorem getD_set_ne {α : Type} {l : List α} {i j : Nat} {x d : α} (h : i ≠ j) :
    (l.set i x).getD j d = l.getD j d := by
  simp [List.getD_eq_getElem?_getD, List.getElem?_set_ne h]

theorem getD_append_left {α : Type} {l m : List α} {i : Nat} {d : α} (h : i < l.length) :
    (l ++ m).getD i d = l.getD i d := by
  simp [List.getD_eq_getElem?_getD, List.getElem?_append_left h]

theorem getD_dropLast {α : Type} {l : List α} {i : Nat} {d : α}
    (h : i < l.length - 1) : l.dropLast.getD i d = l.getD i d := by
  have h1 : i < l.dropLast.length := by simp [List.length_dropLast]; omega
  have h2 : i < l.length := by omega
  rw [List.getD_eq_getElem?_getD, List.getD_eq_getElem?_getD,
    List.getElem?_eq_getElem h1, List.getElem?_eq_getElem h2]
  simp [List.getElem_dropLast]

/-! ### Byte-level helpers -/

theorem testBit_255 {j : Nat} (h : j < 8) : Nat.testBit 255 j = true := by
  interval_cases j <;> decide

theorem testBit_ge_eight {b j : Nat} (hb : b < 256) (h : 8 ≤ j) :
    b.testBit j = false := by
  apply Nat.testBit_lt_two_pow
  calc b < 256 := hb
    _ = 2 ^ 8 := by norm_num
    _ ≤ 2 ^ j := Nat.pow_le_pow_right (by norm_num) h

theorem land_compl_self {v t : Nat} (hv : v < 256) (h : t = 0 ∨ v &&& t = 0) :
    v &&& (255 ^^^ t) = v := by
  apply Nat.eq_of_testBit_eq
  intro j
  rcases Nat.lt_or_ge j 8 with hj | hj
  · rw [Nat.testBit_land, Nat.testBit_xor, testBit_255 hj]
    rcases h with h | h
    · subst h; simp
    · have ht : v.testBit j = true → t.testBit j = false := by
        intro hvj
        by_contra htj
        have : (v &&& t).testBit j = true := by
          rw [Nat.testBit_land, hvj]
          simpa using htj
        rw [h] at this
        simp at this
      cases hvj : v.testBit j
      · simp
      · simp [ht hvj]
  · rw [Nat.testBit_land, testBit_ge_eight hv hj]
    simp

theorem popCnt8_mono {x y : Nat}
    (h : ∀ j, j < 8 → x.testBit j = true → y.testBit j = true) :
    popCnt8 x ≤ popCnt8 y := by
  unfold popCnt8
  apply List.sum_le_sum
  intro j hj
  have hj8 : j < 8 := by simpa using hj
  cases hx : x.testBit j
  · simp
  · simp [h j hj8 hx]

theorem popCnt8_compl_mono {v m : Nat} :
    popCnt8 (255 ^^^ v) ≤ popCnt8 (255 ^^^ (v &&& m)) := by
  apply popCnt8_mono
  intro j hj h
  rw [Nat.testBit_xor, testBit_255 hj] at h ⊢
  rcases hv : v.testBit j
  · simp [Nat.testBit_land, hv]
  · rw [hv] at h
    simp at h

/-! ### simplify_trace -/

theorem simplifyByte_simplifyByte (b : Nat) :
    simplifyByte (simplifyByte b) = 128 := by
  unfold simplifyByte
  split <;> norm_num

theorem simplifyTrace_twice (x : List Nat) :
    simplifyTrace (simplifyTrace x) = List.replicate x.length 128 := by
  induction x with
  | nil => rfl
  | cons b bs ih =>
    simp [simplifyTrace, List.replicate_succ] at ih ⊢
    exact ⟨simplifyByte_simplifyByte b, by simpa [simplifyTrace] using ih⟩

/-- Claim C3: for every byte string `x`,
`simplify_trace(simplify_trace(x)) = simplify_trace(x)`.  The claim fails
on any input containing a zero byte (`0 ↦ 1 ↦ 128`); this theorem proves
the amended statement: a double application yields the all-128 string of
the same length, and it agrees with a single application exactly when the
input has no zero byte (in particular `simplify_trace` is idempotent on
zero-free traces). -/
theorem claim_C3_amended (x : List Nat) :
    simplifyTrace (simplifyTrace x) = List.replicate x.length 128 ∧
    (simplifyTrace (simplifyTrace x) = simplifyTrace x ↔ ∀ b ∈ x, b ≠ 0) := by
  refine ⟨simplifyTrace_twice x, ?_⟩
  rw [simplifyTrace_twice x]
  constructor
  · intro h b hb
    intro hb0
    subst hb0
    have hlen : (List.replicate x.length 128).length = (simplifyTrace x).length := by rw [h]
    have : (1 : Nat) ∈ simplifyTrace x := by
      simp only [simplifyTrace]
      exact List.mem_map.mpr ⟨0, hb, rfl⟩
    rw [← h] at this
    have := List.eq_of_mem_replicate this
    norm_num at this
  · intro h
    induction x with
    | nil => rfl
    | cons b bs ih =>
      have hb : b ≠ 0 := h b (by simp)
      have hbs : ∀ c ∈ bs, c ≠ 0 := fun c hc => h c (by simp [hc])
      simp only [simplifyTrace, List.map_cons, List.length_cons, List.replicate_succ] at ih ⊢
      rw [List.cons_eq_cons]
      constructor
      · simp [simplifyByte, hb]
      · simpa [simplifyTrace] using ih hbs

/-- Claim C3: counterexample to the claim as stated.  At the one-byte
trace `[0]` a single simplification gives `[1]` while a double
simplification gives `[128]`, so `simplify_trace` is not idempotent. -/
theorem claim_C3_counterexample :
    simplifyTrace (simplifyTrace [0]) ≠ simplifyTrace [0] := by decide

/-! ### Executor crash classification -/

/-- Claim C4: every `ExecutionResult` produced by
`TestExecutor._execute_target` satisfies `crashed → ¬timed_out`,
`timed_out → return_code = -1 ∧ ¬crashed`, and on a completed (neither
timed-out nor internally failed) run
`crashed ↔ return_code < 0 ∨ return_code ≥ 128`. -/
theorem claim_C4 (o : RunOutcome) :
    ((executeTarget o).crashed = true → (executeTarget o).timeout = false) ∧
    ((executeTarget o).timeout = true →
      (executeTarget o).returnCode = -1 ∧ (executeTarget o).crashed = false) ∧
    (∀ rc cov err t, o = RunOutcome.completed rc cov err t →
      ((executeTarget o).crashed = true ↔ (rc < 0 ∨ 128 ≤ rc))) := by
  refine ⟨?_, ?_, ?_⟩
  · cases o <;> simp [executeTarget]
  · cases o <;> simp [executeTarget]
  · intro rc cov err t ho
    subst ho
    simp [executeTarget]

/-- Claim C4: witness instantiating the completed-run clause at return
code 139 (signal 11 under the shell convention). -/
theorem claim_C4_witness :
    (executeTarget (RunOutcome.completed 139 none [] 0)).crashed = true :=
  ((claim_C4 (RunOutcome.completed 139 none [] 0)).2.2 139 none [] 0 rfl).mpr
    (Or.inr (by norm_num))

/-! ### Mutator safety -/

theorem drawRange_le {lo hi d : Nat} (h : lo ≤ hi) : drawRange lo hi d ≤ hi := by
  unfold drawRange
  have hk : 0 < hi + 1 - lo := by omega
  have := Nat.mod_lt d hk
  omega

theorem length_packLE (width : Nat) (v : Int) : (packLE width v).length = width := by
  simp [packLE]

theorem length_bitFlip (data rng : List Nat) : (bitFlip data rng).1.length = data.length := by
  unfold bitFlip
  split <;> simp

theorem length_byteFlip (data rng : List Nat) : (byteFlip data rng).1.length = data.length := by
  unfold byteFlip
  split <;> simp

theorem length_overwriteAt {data : List Nat} {idx : Nat} {packed : List Nat}
    (h : idx + packed.length ≤ data.length) :
    (overwriteAt data idx packed).length = data.length := by
  unfold overwriteAt
  simp [List.length_take, List.length_drop]
  omega

theorem overwrite_window_le {len w : Nat} (hw : w ≤ len) (d : Nat) :
    drawRange 0 (len - w) d + w ≤ len := by
  have := @drawRange_le 0 (len - w) d (Nat.zero_le _)
  omega

theorem length_interestingValues (data rng : List Nat) :
    (interestingValues data rng).1.length = data.length := by
  unfold interestingValues
  split
  · rfl
  · by_cases h1 : drawRange 0 2 (nextDraw rng).1 = 0 ∧ 1 ≤ data.length
    · rw [if_pos h1]
      simp
    · rw [if_neg h1]
      by_cases h2 : drawRange 0 2 (nextDraw rng).1 = 1 ∧ 2 ≤ data.length
      · rw [if_pos h2]
        exact length_overwriteAt (by rw [length_packLE]; exact overwrite_window_le h2.2 _)
      · rw [if_neg h2]
        by_cases h3 : 4 ≤ data.length
        · rw [if_pos h3]
          exact length_overwriteAt (by rw [length_packLE]; exact overwrite_window_le h3 _)
        · rw [if_neg h3]

theorem length_insertMut (data rng : List Nat) :
    (insertMut data rng).1.length ≤ data.length + 1 := by
  unfold insertMut
  split
  · simp
  · simp [List.length_take, List.length_drop]
    omega

theorem length_deleteMut (data rng : List Nat) :
    (deleteMut data rng).1.length ≤ data.length := by
  unfold deleteMut
  split
  · simp
  · simp [List.length_take, List.length_drop]
    omega

theorem length_arithmeticMut (data rng : List Nat) :
    (arithmeticMut data rng).1.length = data.length := by
  unfold arithmeticMut
  split <;> simp

theorem length_havocStep (choice : Nat) (data rng : List Nat) :
    (havocStep choice data rng).1.length ≤ data.length + 1 := by
  unfold havocStep
  split
  · rw [length_bitFlip]; omega
  · split
    · rw [length_byteFlip]; omega
    · split
      · rw [length_interestingValues]; omega
      · split
        · exact length_insertMut data rng
        · split
          · exact Nat.le_trans (length_deleteMut data rng) (by omega)
          · rw [length_arithmeticMut]; omega

theorem length_havoc (data : List Nat) (n : Nat) (rng : List Nat) :
    (havoc data n rng).1.length ≤ data.length + n := by
  induction n generalizing data rng with
  | zero => simp [havoc]
  | succ k ih =>
    unfold havoc
    have h1 := length_havocStep (drawRange 0 5 (nextDraw rng).1) data (nextDraw rng).2
    calc (havoc (havocStep (drawRange 0 5 (nextDraw rng).1) data (nextDraw rng).2).1 k
            (havocStep (drawRange 0 5 (nextDraw rng).1) data (nextDraw rng).2).2).1.length
        ≤ (havocStep (drawRange 0 5 (nextDraw rng).1) data (nextDraw rng).2).1.length + k := ih _ _
      _ ≤ data.length + 1 + k := by omega
      _ = data.length + (k + 1) := by omega

/-- Claim C9: every mutation operator applied to the empty byte string
raises no exception and returns a value of length at most 1.  This holds
for the six single-step operators and for splice (as total functions the
embeddings witness the absence of exceptions), but not for havoc, which
can stack inserts; the amended bound for havoc is `iterations` added
bytes.  Splice with one empty side returns the other side unchanged. -/
theorem claim_C9_amended :
    (∀ rng : List Nat,
      (bitFlip [] rng).1 = [] ∧ (byteFlip [] rng).1 = [] ∧
      (interestingValues [] rng).1 = [] ∧ (insertMut [] rng).1.length = 1 ∧
      (deleteMut [] rng).1 = [] ∧ (arithmeticMut [] rng).1 = []) ∧
    (∀ (d rng : List Nat), (splice [] d rng).1 = d ∧ (splice d [] rng).1 = d) ∧
    (∀ (data : List Nat) (n : Nat) (rng : List Nat),
      (havoc data n rng).1.length ≤ data.length + n) := by
  refine ⟨?_, ?_, length_havoc⟩
  · intro rng
    refine ⟨by simp [bitFlip], by simp [byteFlip], by simp [interestingValues],
      by simp [insertMut], by simp [deleteMut], by simp [arithmeticMut]⟩
  · intro d rng
    constructor
    · simp [splice]
    · unfold splice
      split
      · rename_i h
        simp at h
        simp [h]
      · simp

/-- Claim C9: counterexample to the claim as stated.  Havoc is among the
listed operators, and on the empty input with the default 16 iterations a
draw stream that always picks the insert operator grows the buffer to 16
bytes, far beyond length 1. -/
theorem claim_C9_counterexample :
    ¬ (havoc [] 16 (List.replicate 48 3)).1.length ≤ 1 := by decide

/-! ### Blind-mode monitor -/

/-- Claim C10: with `use_coverage=False`, a normal (non-crash,
non-timeout) execution is never interesting: `process_execution` returns
`False`, writes no file, and only increments `total_execs`. -/
theorem claim_C10 (hashFn : List Nat → Nat) (st : MonitorState)
    (input : List Nat) (res : ExecResult)
    (hcov : st.useCoverage = false) (hcr : res.crashed = false)
    (hto : res.timeout = false) :
    processExecution hashFn st input res =
      (false, { st with stats := { st.stats with totalExecs := st.stats.totalExecs + 1 } }, []) := by
  simp [processExecution, hcr, hto, hcov]

/-- Claim C10: witness at a concrete blind monitor and a concrete clean
execution result. -/
theorem claim_C10_witness :
    processExecution (fun _ => 0) (initMonitor false 8) [104] sampleCleanResult =
      (false,
        { initMonitor false 8 with
          stats := { (initMonitor false 8).stats with
                     totalExecs := (initMonitor false 8).stats.totalExecs + 1 } }, []) :=
  claim_C10 (fun _ => 0) (initMonitor false 8) [104] sampleCleanResult rfl rfl rfl

/-! ### Checkpoint restoration -/

/-- Claim C6: after loading a checkpoint, `start_time` equals load-time
`now` minus the saved elapsed interval
(`last_snapshot_time - start_time`), and `total_coverage_bits` equals the
recomputation from the restored `virgin_bits` bytes.  The checkpoint
format does not even store `total_coverage_bits`
(`CHECKPOINT_MONITOR_STATS_FIELDS` omits it), so the restored value can
only come from the recomputation. -/
theorem claim_C6 (now : ℚ) (ck : Checkpoint) (fz : FuzzerSlice) (bs : List Nat)
    (hcov : fz.monitor.useCoverage = true) (hbs : ck.monitor.virginBits = some bs) :
    (applyCheckpoint now ck fz).startTime =
      now - (ck.runtime.lastSnapshotTime - ck.runtime.startTime) ∧
    (applyCheckpoint now ck fz).monitor.virginBits = some bs ∧
    (applyCheckpoint now ck fz).monitor.stats.totalCoverageBits = countCoverageBits bs := by
  simp [applyCheckpoint, restoreBitmap, hcov, hbs]

/-- Claim C6: witness at a concrete checkpoint whose `virgin_bits` is
`[254, 255]` (one edge bucket observed) loaded at time 10 with a saved
elapsed interval of 4. -/
theorem claim_C6_witness :
    (applyCheckpoint 10 sampleCheckpoint sampleFuzzer).startTime = 10 - (7 - 3) ∧
    (applyCheckpoint 10 sampleCheckpoint sampleFuzzer).monitor.stats.totalCoverageBits =
      countCoverageBits [254, 255] := by
  have h := claim_C6 10 sampleCheckpoint sampleFuzzer [254, 255] rfl rfl
  exact ⟨h.1, h.2.2⟩

/-! ### Resume failure handling -/

/-- Claim C7: the claim as amended.  When resumption is requested and the
checkpoint file is missing or carries an out-of-range version,
`_load_checkpoint` prints a diagnostic and returns without restoring
anything, and the fuzzer then proceeds as a fresh run; no path of the
loader terminates the process, so the result is always `Except.ok`. -/
theorem claim_C7_amended (now : ℚ) (file : Option Checkpoint) (fz : FuzzerSlice)
    (h : file = none ∨
      ∃ ck, file = some ck ∧ (ck.version < 1 ∨ CHECKPOINT_VERSION < ck.version)) :
    loadCheckpointStep now file fz = Except.ok fz := by
  rcases h with h | ⟨ck, hf, hv⟩
  · subst h; rfl
  · subst hf
    simp only [loadCheckpointStep]
    rw [if_pos hv]

/-- Claim C7: counterexample to the claim as stated.  A missing
checkpoint under `--resume-from` should, per the claim, end the process
with a nonzero status; instead the loader returns normally with the
engine state untouched and the run continues fresh. -/
theorem claim_C7_counterexample :
    loadCheckpointStep 0 none sampleFuzzer = Except.ok sampleFuzzer ∧
    (loadCheckpointStep 0 none sampleFuzzer).isOk = true :=
  ⟨rfl, rfl⟩

/-- Claim C7: witness applying the amended claim to a checkpoint with
the unsupported version 9999. -/
theorem claim_C7_witness :
    loadCheckpointStep 0 (some sampleBadVersion) sampleFuzzerBlind =
      Except.ok sampleFuzzerBlind :=
  claim_C7_amended 0 (some sampleBadVersion) sampleFuzzerBlind
    (Or.inr ⟨sampleBadVersion, rfl, Or.inr (by norm_num [CHECKPOINT_VERSION, sampleBadVersion])⟩)

/-! ### has_new_bits -/

theorem hnb_length {t v : List Nat} (h : t.length ≤ v.length) :
    (hasNewBitsList t v).2.length = v.length := by
  induction t generalizing v with
  | nil => cases v <;> rfl
  | cons a ts ih =>
    cases v with
    | nil => simp at h
    | cons b vs =>
      simp only [List.length_cons] at h
      have := @ih vs (by omega)
      unfold hasNewBitsList
      split <;> simp [this]

theorem hnb_flag_iff {t v : List Nat} (h : t.length ≤ v.length) :
    (hasNewBitsList t v).1 = true ↔
      ∃ i, i < t.length ∧ t.getD i 0 ≠ 0 ∧ ((v.getD i 0) &&& (t.getD i 0)) ≠ 0 := by
  induction t generalizing v with
  | nil =>
    simp [hasNewBitsList]
  | cons a ts ih =>
    cases v with
    | nil => simp at h
    | cons b vs =>
      simp only [List.length_cons] at h
      have ihv := @ih vs (by omega)
      unfold hasNewBitsList
      split
      · rename_i hcond
        simp only [true_iff]
        exact ⟨0, by simp, by simpa using hcond.1, by simpa using hcond.2⟩
      · rename_i hcond
        rw [ihv]
        constructor
        · rintro ⟨i, hi, h1, h2⟩
          exact ⟨i + 1, by simpa using hi, by simpa using h1, by simpa using h2⟩
        · rintro ⟨i, hi, h1, h2⟩
          cases i with
          | zero =>
            simp only [List.getD_cons_zero] at h1 h2
            exact absurd ⟨h1, h2⟩ hcond
          | succ j =>
            simp only [List.getD_cons_succ] at h1 h2
            exact ⟨j, by simpa using hi, h1, h2⟩

theorem hnb_getD {t v : List Nat} (hlen : t.length = v.length)
    (hv : ∀ b ∈ v, b < 256) :
    ∀ i, i < v.length →
      (hasNewBitsList t v).2.getD i 0 = (v.getD i 0) &&& (255 ^^^ (t.getD i 0)) := by
  induction t generalizing v with
  | nil =>
    cases v with
    | nil => intro i hi; simp at hi
    | cons b vs => simp at hlen
  | cons a ts ih =>
    cases v with
    | nil => simp at hlen
    | cons b vs =>
      simp only [List.length_cons] at hlen
      have hb : b < 256 := hv b (by simp)
      have hvs : ∀ x ∈ vs, x < 256 := fun x hx => hv x (by simp [hx])
      intro i hi
      unfold hasNewBitsList
      split
      · rename_i hcond
        cases i with
        | zero => simp
        | succ j =>
          simp only [List.getD_cons_succ]
          exact ih (by omega) hvs j (by simpa using hi)
      · rename_i hcond
        cases i with
        | zero =>
          simp only [List.getD_cons_zero]
          rw [land_compl_self hb]
          rcases Decidable.em (a = 0) with ha | ha
          · exact Or.inl ha
          · right
            by_contra hz
            exact hcond ⟨ha, hz⟩
        | succ j =>
          simp only [List.getD_cons_succ]
          exact ih (by omega) hvs j (by simpa using hi)

theorem hnb_testBit_mono (t v : List Nat) :
    ∀ i j, ((hasNewBitsList t v).2.getD i 0).testBit j = true →
      ((v.getD i 0).testBit j) = true := by
  induction t generalizing v with
  | nil =>
    intro i j
    cases v <;> simp [hasNewBitsList]
  | cons a ts ih =>
    intro i j
    cases v with
    | nil =>
      unfold hasNewBitsList
      simp
    | cons b vs =>
      unfold hasNewBitsList
      split
      · cases i with
        | zero =>
          simp only [List.getD_cons_zero]
          intro hset
          rw [Nat.testBit_land] at hset
          exact (Bool.and_eq_true_iff.mp hset).1
        | succ k =>
          simp only [List.getD_cons_succ]
          exact ih vs k j
      · cases i with
        | zero => simp
        | succ k =>
          simp only [List.getD_cons_succ]
          exact ih vs k j

theorem hnb_count_mono (t v : List Nat) :
    countCoverageBits v ≤ countCoverageBits (hasNewBitsList t v).2 := by
  induction t generalizing v with
  | nil => cases v <;> simp [hasNewBitsList]
  | cons a ts ih =>
    cases v with
    | nil => simp [hasNewBitsList]
    | cons b vs =>
      unfold hasNewBitsList
      split
      · simp only [countCoverageBits, List.map_cons, List.sum_cons]
        have h1 : popCnt8 (255 ^^^ b) ≤ popCnt8 (255 ^^^ (b &&& (255 ^^^ a))) :=
          popCnt8_compl_mono
        have h2 := ih vs
        simp only [countCoverageBits] at h2
        omega
      · simp only [countCoverageBits, List.map_cons, List.sum_cons]
        have h2 := ih vs
        simp only [countCoverageBits] at h2
        omega

/-! ### Monitor invariants -/

theorem bitsLE_refl (v : List Nat) : bitsLE v v := fun _ _ h => h

theorem virginLE_refl (o : Option (List Nat)) : virginLE o o := by
  cases o
  · trivial
  · exact bitsLE_refl _

theorem virginLE_trans {a b c : Option (List Nat)}
    (h1 : virginLE a b) (h2 : virginLE b c) : virginLE a c := by
  cases a <;> cases b <;> cases c <;> simp_all [virginLE]
  exact fun i j h => h2 i j (h1 i j h)

theorem handleCrash_virginBits (hashFn : List Nat → Nat) (st : MonitorState)
    (input : List Nat) (res : ExecResult) :
    (handleCrash hashFn st input res).2.1.virginBits = st.virginBits := by
  unfold handleCrash
  split
  · dsimp only
    split <;> rfl
  · dsimp only
    split <;> rfl

theorem handleHang_virginBits (hashFn : List Nat → Nat) (st : MonitorState)
    (input : List Nat) (res : ExecResult) :
    (handleHang hashFn st input res).2.1.virginBits = st.virginBits := by
  unfold handleHang
  split
  · dsimp only
    split <;> rfl
  · dsimp only
    split <;> rfl

theorem handleCrash_covBits (hashFn : List Nat → Nat) (st : MonitorState)
    (input : List Nat) (res : ExecResult) :
    (handleCrash hashFn st input res).2.1.stats.totalCoverageBits =
      st.stats.totalCoverageBits := by
  unfold handleCrash
  split
  · dsimp only
    split <;> rfl
  · dsimp only
    split <;> rfl

theorem handleHang_covBits (hashFn : List Nat → Nat) (st : MonitorState)
    (input : List Nat) (res : ExecResult) :
    (handleHang hashFn st input res).2.1.stats.totalCoverageBits =
      st.stats.totalCoverageBits := by
  unfold handleHang
  split
  · dsimp only
    split <;> rfl
  · dsimp only
    split <;> rfl

theorem step_virginLE (hashFn : List Nat → Nat) (st : MonitorState)
    (input : List Nat) (res : ExecResult) :
    virginLE (processExecution hashFn st input res).2.1.virginBits st.virginBits := by
  unfold processExecution
  split
  · rw [handleCrash_virginBits]
    exact virginLE_refl _
  · split
    · rw [handleHang_virginBits]
      exact virginLE_refl _
    · split
      · split
        · dsimp only
          split
          · rename_i hsome
            rcases hvb : st.virginBits with _ | v
            · rw [hvb] at hsome
              simp at hsome
            · simp only [hvb, virginLE, Option.getD]
              intro i j
              have := hnb_testBit_mono (res.coverage.getD []) v i j
              simpa [hvb] using this
          · exact virginLE_refl _
        · exact virginLE_refl _
      · exact virginLE_refl _

theorem step_statOk (hashFn : List Nat → Nat) (st : MonitorState)
    (input : List Nat) (res : ExecResult) (h : statOk st) :
    statOk (processExecution hashFn st input res).2.1 := by
  unfold statOk at h ⊢
  unfold processExecution
  split
  · rw [handleCrash_covBits, handleCrash_virginBits]
    exact h
  · split
    · rw [handleHang_covBits, handleHang_virginBits]
      exact h
    · split
      · split
        · dsimp only
          split
          · simp
          · exact h
        · exact h
      · exact h

theorem step_covBits_mono (hashFn : List Nat → Nat) (st : MonitorState)
    (input : List Nat) (res : ExecResult) (h : statOk st) :
    st.stats.totalCoverageBits ≤
      (processExecution hashFn st input res).2.1.stats.totalCoverageBits := by
  unfold processExecution
  split
  · rw [handleCrash_covBits]
  · split
    · rw [handleHang_covBits]
    · split
      · split
        · dsimp only
          split
          · rename_i hsome
            rcases hvb : st.virginBits with _ | v
            · rw [hvb] at hsome
              simp at hsome
            · unfold statOk at h
              rw [hvb] at h
              simp only [h, hvb, Option.getD, Option.map_some]
              exact hnb_count_mono _ v
          · exact Nat.le_refl _
        · exact Nat.le_refl _
      · exact Nat.le_refl _

theorem runMonitor_append (hashFn : List Nat → Nat) (st : MonitorState)
    (ps qs : List (List Nat × ExecResult)) :
    runMonitor hashFn st (ps ++ qs) = runMonitor hashFn (runMonitor hashFn st ps) qs := by
  induction ps generalizing st with
  | nil => rfl
  | cons p ps ih =>
    simp only [List.cons_append, runMonitor]
    exact ih _

theorem run_virginLE (hashFn : List Nat → Nat) (ps : List (List Nat × ExecResult)) :
    ∀ st, virginLE (runMonitor hashFn st ps).virginBits st.virginBits := by
  induction ps with
  | nil => intro st; exact virginLE_refl _
  | cons p ps ih =>
    intro st
    exact virginLE_trans (ih _) (step_virginLE hashFn st p.1 p.2)

theorem run_statOk (hashFn : List Nat → Nat) (ps : List (List Nat × ExecResult)) :
    ∀ st, statOk st → statOk (runMonitor hashFn st ps) := by
  induction ps with
  | nil => intro st h; exact h
  | cons p ps ih =>
    intro st h
    exact ih _ (step_statOk hashFn st p.1 p.2 h)

theorem run_covBits_mono (hashFn : List Nat → Nat) (ps : List (List Nat × ExecResult)) :
    ∀ st, statOk st →
      st.stats.totalCoverageBits ≤ (runMonitor hashFn st ps).stats.totalCoverageBits := by
  induction ps with
  | nil => intro st _; exact Nat.le_refl _
  | cons p ps ih =>
    intro st h
    exact Nat.le_trans (step_covBits_mono hashFn st p.1 p.2 h)
      (ih _ (step_statOk hashFn st p.1 p.2 h))

theorem statOk_init (useCoverage : Bool) (bitmapSize : Nat) :
    statOk (initMonitor useCoverage bitmapSize) := by
  unfold statOk initMonitor
  cases useCoverage
  · rfl
  · simp only [if_pos rfl]
    have : countCoverageBits (List.replicate bitmapSize 255) = 0 := by
      unfold countCoverageBits
      rw [List.map_replicate]
      simp [popCnt8]
    simp [this]

/-- Claim C1: functional description of `_has_new_bits` and the derived
run-level invariants.  For a trace and virgin bitmap of equal length (of
byte values): the returned flag is true iff some index has
`trace[i] != 0` and `virgin[i] & trace[i] != 0`, and afterwards every
virgin byte equals its old value and-ed with the complement of the trace
byte.  Consequently, along every run of `process_execution` steps from a
fresh coverage-enabled monitor, the set bits of `virgin_bits` never
increase and `total_coverage_bits` is monotone non-decreasing. -/
theorem claim_C1 :
    (∀ trace virgin : List Nat, trace.length = virgin.length →
      (∀ b ∈ virgin, b < 256) →
      ((hasNewBitsList trace virgin).1 = true ↔
        ∃ i, i < trace.length ∧ trace.getD i 0 ≠ 0 ∧
          ((virgin.getD i 0) &&& (trace.getD i 0)) ≠ 0) ∧
      (∀ i, i < virgin.length →
        (hasNewBitsList trace virgin).2.getD i 0 =
          (virgin.getD i 0) &&& (255 ^^^ (trace.getD i 0)))) ∧
    (∀ (hashFn : List Nat → Nat) (bitmapSize : Nat)
      (ps qs : List (List Nat × ExecResult)),
      virginLE (runMonitor hashFn (initMonitor true bitmapSize) (ps ++ qs)).virginBits
        (runMonitor hashFn (initMonitor true bitmapSize) ps).virginBits ∧
      (runMonitor hashFn (initMonitor true bitmapSize) ps).stats.totalCoverageBits ≤
        (runMonitor hashFn (initMonitor true bitmapSize) (ps ++ qs)).stats.totalCoverageBits) := by
  constructor
  · intro trace virgin hlen hv
    exact ⟨hnb_flag_iff (le_of_eq hlen), hnb_getD hlen hv⟩
  · intro hashFn bitmapSize ps qs
    rw [runMonitor_append]
    constructor
    · exact run_virginLE hashFn qs _
    · exact run_covBits_mono hashFn qs _
        (run_statOk hashFn ps _ (statOk_init true bitmapSize))

/-- Claim C1: witness discharging the hypotheses at the concrete trace
`[5]` against the fresh virgin byte `[255]`: a find is reported and the
virgin byte is cleared to `250 = 255 AND NOT 5`. -/
theorem claim_C1_witness :
    (hasNewBitsList [5] [255]).1 = true ∧
    (hasNewBitsList [5] [255]).2.getD 0 0 = 255 &&& (255 ^^^ 5) := by
  have h := (claim_C1.1 [5] [255] rfl (by intro b hb; simp at hb; omega))
  constructor
  · exact h.1.mpr ⟨0, by norm_num, by norm_num, by decide⟩
  · simpa using h.2 0 (by norm_num)

/-! ### Crash/hang counters -/

theorem handleCrash_counters (hashFn : List Nat → Nat) (st : MonitorState)
    (input : List Nat) (res : ExecResult) :
    (handleCrash hashFn st input res).2.1.stats.totalCrashes = st.stats.totalCrashes + 1 ∧
    ((handleCrash hashFn st input res).2.1.stats.savedCrashes = st.stats.savedCrashes ∨
      (handleCrash hashFn st input res).2.1.stats.savedCrashes = st.stats.savedCrashes + 1) ∧
    (handleCrash hashFn st input res).2.1.stats.totalHangs = st.stats.totalHangs ∧
    (handleCrash hashFn st input res).2.1.stats.savedHangs = st.stats.savedHangs := by
  unfold handleCrash
  split
  · dsimp only
    split
    · exact ⟨rfl, Or.inr rfl, rfl, rfl⟩
    · exact ⟨rfl, Or.inl rfl, rfl, rfl⟩
  · dsimp only
    split
    · exact ⟨rfl, Or.inl rfl, rfl, rfl⟩
    · exact ⟨rfl, Or.inr rfl, rfl, rfl⟩

theorem handleHang_counters (hashFn : List Nat → Nat) (st : MonitorState)
    (input : List Nat) (res : ExecResult) :
    (handleHang hashFn st input res).2.1.stats.totalHangs = st.stats.totalHangs + 1 ∧
    ((handleHang hashFn st input res).2.1.stats.savedHangs = st.stats.savedHangs ∨
      (handleHang hashFn st input res).2.1.stats.savedHangs = st.stats.savedHangs + 1) ∧
    (handleHang hashFn st input res).2.1.stats.totalCrashes = st.stats.totalCrashes ∧
    (handleHang hashFn st input res).2.1.stats.savedCrashes = st.stats.savedCrashes := by
  unfold handleHang
  split
  · dsimp only
    split
    · exact ⟨rfl, Or.inr rfl, rfl, rfl⟩
    · exact ⟨rfl, Or.inl rfl, rfl, rfl⟩
  · dsimp only
    split
    · exact ⟨rfl, Or.inl rfl, rfl, rfl⟩
    · exact ⟨rfl, Or.inr rfl, rfl, rfl⟩

theorem step_counters (hashFn : List Nat → Nat) (st : MonitorState)
    (input : List Nat) (res : ExecResult) :
    st.stats.totalCrashes ≤ (processExecution hashFn st input res).2.1.stats.totalCrashes ∧
    st.stats.savedCrashes ≤ (processExecution hashFn st input res).2.1.stats.savedCrashes ∧
    st.stats.totalHangs ≤ (processExecution hashFn st input res).2.1.stats.totalHangs ∧
    st.stats.savedHangs ≤ (processExecution hashFn st input res).2.1.stats.savedHangs ∧
    (st.stats.savedCrashes ≤ st.stats.totalCrashes →
      (processExecution hashFn st input res).2.1.stats.savedCrashes ≤
        (processExecution hashFn st input res).2.1.stats.totalCrashes) ∧
    (st.stats.savedHangs ≤ st.stats.totalHangs →
      (processExecution hashFn st input res).2.1.stats.savedHangs ≤
        (processExecution hashFn st input res).2.1.stats.totalHangs) := by
  unfold processExecution
  split
  · obtain ⟨h1, h2, h3, h4⟩ :=
      handleCrash_counters hashFn
        { st with stats := { st.stats with totalExecs := st.stats.totalExecs + 1 } } input res
    simp only at h1 h2 h3 h4
    rcases h2 with h2 | h2 <;> (rw [h1, h3, h4, h2]; omega)
  · split
    · obtain ⟨h1, h2, h3, h4⟩ :=
        handleHang_counters hashFn
          { st with stats := { st.stats with totalExecs := st.stats.totalExecs + 1 } } input res
      simp only at h1 h2 h3 h4
      rcases h2 with h2 | h2 <;> (rw [h1, h3, h4, h2]; omega)
    · split
      · split
        · dsimp only
          split
          · simp
          · simp
        · simp
      · simp

theorem run_counters (hashFn : List Nat → Nat) (ps : List (List Nat × ExecResult)) :
    ∀ st : MonitorState,
      st.stats.totalCrashes ≤ (runMonitor hashFn st ps).stats.totalCrashes ∧
      st.stats.savedCrashes ≤ (runMonitor hashFn st ps).stats.savedCrashes ∧
      st.stats.totalHangs ≤ (runMonitor hashFn st ps).stats.totalHangs ∧
      st.stats.savedHangs ≤ (runMonitor hashFn st ps).stats.savedHangs ∧
      (st.stats.savedCrashes ≤ st.stats.totalCrashes →
        (runMonitor hashFn st ps).stats.savedCrashes ≤
          (runMonitor hashFn st ps).stats.totalCrashes) ∧
      (st.stats.savedHangs ≤ st.stats.totalHangs →
        (runMonitor hashFn st ps).stats.savedHangs ≤
          (runMonitor hashFn st ps).stats.totalHangs) := by
  induction ps with
  | nil =>
    intro st
    exact ⟨Nat.le_refl _, Nat.le_refl _, Nat.le_refl _, Nat.le_refl _, id, id⟩
  | cons p ps ih =>
    intro st
    obtain ⟨s1, s2, s3, s4, s5, s6⟩ := step_counters hashFn st p.1 p.2
    obtain ⟨r1, r2, r3, r4, r5, r6⟩ := ih (processExecution hashFn st p.1 p.2).2.1
    refine ⟨Nat.le_trans s1 r1, Nat.le_trans s2 r2, Nat.le_trans s3 r3,
      Nat.le_trans s4 r4, fun h => r5 (s5 h), fun h => r6 (s6 h)⟩

/-- Claim C5: crash deduplication and counter invariants.  A crashing
execution whose simplified coverage yields no new bits against
`virgin_crash` bumps `total_crashes` without bumping `saved_crashes` and
writes no crash file; concretely, two crashes with identical coverage
(hence identical simplified traces) from a fresh coverage-enabled
monitor give `total_crashes = 2`, `saved_crashes = 1` and exactly one
crash input file; and along every run from a fresh monitor both crash
and hang counters are monotone with `total ≥ saved ≥ 0` throughout. -/
theorem claim_C5 :
    (∀ (hashFn : List Nat → Nat) (st : MonitorState) (input : List Nat)
      (res : ExecResult) (vc : List Nat),
      res.crashed = true → st.virginCrash = some vc →
      covTruthy res.coverage = true →
      (hasNewBitsList (simplifyTrace (res.coverage.getD [])) vc).1 = false →
      (processExecution hashFn st input res).1 = false ∧
      (processExecution hashFn st input res).2.1.stats.totalCrashes =
        st.stats.totalCrashes + 1 ∧
      (processExecution hashFn st input res).2.1.stats.savedCrashes =
        st.stats.savedCrashes ∧
      (processExecution hashFn st input res).2.2 = []) ∧
    ((processExecution (fun _ => 0)
        (processExecution (fun _ => 0) (initMonitor true 2) [1, 2] sampleCrashResult).2.1
        [3, 4] sampleCrashResult).2.1.stats.totalCrashes = 2 ∧
      (processExecution (fun _ => 0)
        (processExecution (fun _ => 0) (initMonitor true 2) [1, 2] sampleCrashResult).2.1
        [3, 4] sampleCrashResult).2.1.stats.savedCrashes = 1 ∧
      (((processExecution (fun _ => 0) (initMonitor true 2) [1, 2] sampleCrashResult).2.2 ++
        (processExecution (fun _ => 0)
          (processExecution (fun _ => 0) (initMonitor true 2) [1, 2] sampleCrashResult).2.1
          [3, 4] sampleCrashResult).2.2).filter isCrashFile).length = 1) ∧
    (∀ (hashFn : List Nat → Nat) (useCov : Bool) (bitmapSize : Nat)
      (ps qs : List (List Nat × ExecResult)),
      (runMonitor hashFn (initMonitor useCov bitmapSize) ps).stats.savedCrashes ≤
        (runMonitor hashFn (initMonitor useCov bitmapSize) ps).stats.totalCrashes ∧
      (runMonitor hashFn (initMonitor useCov bitmapSize) ps).stats.savedHangs ≤
        (runMonitor hashFn (initMonitor useCov bitmapSize) ps).stats.totalHangs ∧
      (runMonitor hashFn (initMonitor useCov bitmapSize) ps).stats.totalCrashes ≤
        (runMonitor hashFn (initMonitor useCov bitmapSize) (ps ++ qs)).stats.totalCrashes ∧
      (runMonitor hashFn (initMonitor useCov bitmapSize) ps).stats.savedCrashes ≤
        (runMonitor hashFn (initMonitor useCov bitmapSize) (ps ++ qs)).stats.savedCrashes ∧
      (runMonitor hashFn (initMonitor useCov bitmapSize) ps).stats.totalHangs ≤
        (runMonitor hashFn (initMonitor useCov bitmapSize) (ps ++ qs)).stats.totalHangs ∧
      (runMonitor hashFn (initMonitor useCov bitmapSize) ps).stats.savedHangs ≤
        (runMonitor hashFn (initMonitor useCov bitmapSize) (ps ++ qs)).stats.savedHangs) := by
  refine ⟨?_, ?_, ?_⟩
  · intro hashFn st input res vc hcr hvc hcov hflag
    simp [processExecution, handleCrash, hcr, hvc, hcov, hflag]
  · refine ⟨by decide, by decide, by decide⟩
  · intro hashFn useCov bitmapSize ps qs
    obtain ⟨p1, p2, p3, p4, p5, p6⟩ := run_counters hashFn ps (initMonitor useCov bitmapSize)
    have hinit1 : (initMonitor useCov bitmapSize).stats.savedCrashes ≤
        (initMonitor useCov bitmapSize).stats.totalCrashes := by
      simp [initMonitor]
    have hinit2 : (initMonitor useCov bitmapSize).stats.savedHangs ≤
        (initMonitor useCov bitmapSize).stats.totalHangs := by
      simp [initMonitor]
    rw [runMonitor_append]
    obtain ⟨q1, q2, q3, q4, _, _⟩ :=
      run_counters hashFn qs (runMonitor hashFn (initMonitor useCov bitmapSize) ps)
    exact ⟨p5 hinit1, p6 hinit2, q1, q2, q3, q4⟩

/-- Claim C5: witness discharging the duplicate-crash hypotheses at the
monitor state reached after the first sample crash, where the second
identical crash is dropped. -/
theorem claim_C5_witness :
    (processExecution (fun _ => 0)
      (processExecution (fun _ => 0) (initMonitor true 2) [1, 2] sampleCrashResult).2.1
      [3, 4] sampleCrashResult).1 = false ∧
    (processExecution (fun _ => 0)
      (processExecution (fun _ => 0) (initMonitor true 2) [1, 2] sampleCrashResult).2.1
      [3, 4] sampleCrashResult).2.2 = [] := by
  have h := claim_C5.1 (fun _ => 0)
    (processExecution (fun _ => 0) (initMonitor true 2) [1, 2] sampleCrashResult).2.1
    [3, 4] sampleCrashResult [254, 127] rfl (by decide) rfl (by decide)
  exact ⟨h.1, h.2.2.2⟩

/-! ### heapq: sizes and membership -/

theorem getD_mem {α : Type} {l : List α} {i : Nat} {d : α} (h : i < l.length) :
    l.getD i d ∈ l := by
  rw [List.getD_eq_getElem?_getD, List.getElem?_eq_getElem h]
  exact List.getElem_mem h

theorem length_siftdownLoop : ∀ (pos : Nat) (heap : List Seed) (x : Seed),
    (siftdownLoop heap pos x).length = heap.length := by
  intro pos
  induction pos using Nat.strong_induction_on with
  | _ pos ih =>
    intro heap x
    unfold siftdownLoop
    dsimp only
    split
    · split
      · rename_i hpos _
        rw [ih _ (by omega)]
        simp
      · simp
    · simp

theorem length_siftupLoop : ∀ (n : Nat) (heap : List Seed) (pos : Nat) (x : Seed),
    heap.length - pos ≤ n → (siftupLoop heap pos x).length = heap.length := by
  intro n
  induction n with
  | zero =>
    intro heap pos x h
    unfold siftupLoop
    dsimp only
    split
    · omega
    · rw [length_siftdownLoop]
      simp
  | succ k ih =>
    intro heap pos x h
    unfold siftupLoop
    dsimp only
    split
    · rename_i hchild
      rw [ih]
      · simp
      · simp only [List.length_set]
        split <;> omega
    · rw [length_siftdownLoop]
      simp

theorem length_heappush (l : List Seed) (x : Seed) :
    (heappush l x).length = l.length + 1 := by
  unfold heappush
  rw [length_siftdownLoop]
  simp

theorem mem_siftdownLoop : ∀ (pos : Nat) (heap : List Seed) (x y : Seed),
    pos < heap.length → y ∈ siftdownLoop heap pos x → y ∈ heap ∨ y = x := by
  intro pos
  induction pos using Nat.strong_induction_on with
  | _ pos ih =>
    intro heap x y hpos hy
    unfold siftdownLoop at hy
    dsimp only at hy
    split at hy
    · split at hy
      · rename_i h0 _
        have hpar : (pos - 1) / 2 < heap.length := by omega
        rcases ih _ (by omega) _ _ _ (by simpa using hpar) hy with h | h
        · rcases List.mem_or_eq_of_mem_set h with h | h
          · exact Or.inl h
          · exact Or.inl (h ▸ getD_mem hpar)
        · exact Or.inr h
      · rcases List.mem_or_eq_of_mem_set hy with h | h
        · exact Or.inl h
        · exact Or.inr h
    · rcases List.mem_or_eq_of_mem_set hy with h | h
      · exact Or.inl h
      · exact Or.inr h

theorem mem_siftupLoop : ∀ (n : Nat) (heap : List Seed) (pos : Nat) (x y : Seed),
    pos < heap.length → heap.length - pos ≤ n →
    y ∈ siftupLoop heap pos x → y ∈ heap ∨ y = x := by
  intro n
  induction n with
  | zero =>
    intro heap pos x y hpos h hy
    omega
  | succ k ih =>
    intro heap pos x y hpos h hy
    unfold siftupLoop at hy
    dsimp only at hy
    split at hy
    · rename_i hchild
      have hcb : 2 * pos + 1 ≤ (if 2 * pos + 1 + 1 < heap.length ∧
          ¬ seedLt (heap.getD (2 * pos + 1) default) (heap.getD (2 * pos + 1 + 1) default) = true
          then 2 * pos + 1 + 1 else 2 * pos + 1) := by
        split <;> omega
      have hclt : (if 2 * pos + 1 + 1 < heap.length ∧
          ¬ seedLt (heap.getD (2 * pos + 1) default) (heap.getD (2 * pos + 1 + 1) default) = true
          then 2 * pos + 1 + 1 else 2 * pos + 1) < heap.length := by
        split <;> omega
      rcases ih _ _ x y (by simp only [List.length_set]; omega)
        (by simp only [List.length_set]; omega) hy with h1 | h1
      · rcases List.mem_or_eq_of_mem_set h1 with h2 | h2
        · exact Or.inl h2
        · exact Or.inl (h2 ▸ getD_mem hclt)
      · exact Or.inr h1
    · rcases mem_siftdownLoop pos _ x y (by simp only [List.length_set]; omega) hy with h1 | h1
      · rcases List.mem_or_eq_of_mem_set h1 with h2 | h2
        · exact Or.inl h2
        · exact Or.inr h2
      · exact Or.inr h1

theorem mem_heappush {l : List Seed} {x y : Seed} (hy : y ∈ heappush l x) :
    y ∈ l ∨ y = x := by
  unfold heappush at hy
  rcases mem_siftdownLoop l.length _ x y (by simp) hy with h | h
  · rcases List.mem_append.mp h with h1 | h1
    · exact Or.inl h1
    · exact Or.inr (by simpa using h1)
  · exact Or.inr h

theorem heappop_of_ne_nil (l : List Seed) (h : l ≠ []) :
    ∃ rest, heappop l = some (l.getD 0 default, rest) ∧
      rest.length = l.length - 1 ∧ (∀ y ∈ rest, y ∈ l) := by
  match l with
  | [] => exact absurd rfl h
  | [a] => exact ⟨[], rfl, by simp, by simp⟩
  | a :: b :: bs =>
    have hlast : (a :: b :: bs).getLast (List.cons_ne_nil a (b :: bs)) ∈ a :: b :: bs :=
      List.getLast_mem _
    have hsetlen : ((a :: (b :: bs).dropLast).set 0
        ((a :: b :: bs).getLast (List.cons_ne_nil a (b :: bs)))).length = bs.length + 1 := by
      simp
    refine ⟨siftupLoop ((a :: (b :: bs).dropLast).set 0
        ((a :: b :: bs).getLast (List.cons_ne_nil a (b :: bs)))) 0
        ((a :: b :: bs).getLast (List.cons_ne_nil a (b :: bs))), rfl, ?_, ?_⟩
    · have hl := length_siftupLoop (bs.length + 2)
        ((a :: (b :: bs).dropLast).set 0
          ((a :: b :: bs).getLast (List.cons_ne_nil a (b :: bs)))) 0
        ((a :: b :: bs).getLast (List.cons_ne_nil a (b :: bs))) (by rw [hsetlen]; omega)
      rw [hl, hsetlen]
      simp
    · intro y hy
      have hm := mem_siftupLoop (bs.length + 2)
        ((a :: (b :: bs).dropLast).set 0
          ((a :: b :: bs).getLast (List.cons_ne_nil a (b :: bs)))) 0
        ((a :: b :: bs).getLast (List.cons_ne_nil a (b :: bs))) y
        (by rw [hsetlen]; omega) (by rw [hsetlen]; omega) hy
      rcases hm with h1 | h1
      · rcases List.mem_or_eq_of_mem_set h1 with h2 | h2
        · have hsub : a :: (b :: bs).dropLast = (a :: b :: bs).dropLast := rfl
          rw [hsub] at h2
          exact List.dropLast_subset _ h2
        · exact h2 ▸ hlast
      · exact h1 ▸ hlast

/-! ### heapq: the heap property -/

theorem seedLt_iff {a b : Seed} : seedLt a b = true ↔ a.sortIndex < b.sortIndex := by
  simp [seedLt]

theorem seedLt_false {a b : Seed} (h : ¬ seedLt a b = true) : b.sortIndex ≤ a.sortIndex :=
  le_of_not_lt (fun hlt => h (seedLt_iff.mpr hlt))

theorem getD_set_set_at {α : Type} {l : List α} {i j : Nat} {x y d : α}
    (hj : j < l.length) : ((l.set i y).set j x).getD j d = x :=
  getD_set_self (by simpa using hj)

theorem getD_set_set_inner {α : Type} {l : List α} {i j : Nat} {x y d : α}
    (hji : j ≠ i) (hi : i < l.length) : ((l.set i y).set j x).getD i d = y := by
  rw [getD_set_ne hji, getD_set_self hi]

theorem getD_set_set_other {α : Type} {l : List α} {i j k : Nat} {x y d : α}
    (hjk : j ≠ k) (hik : i ≠ k) : ((l.set i y).set j x).getD k d = l.getD k d := by
  rw [getD_set_ne hjk, getD_set_ne hik]

theorem siftdownLoop_isHeap : ∀ (pos : Nat) (heap : List Seed) (x : Seed),
    pos < heap.length →
    heapExceptUp (heap.set pos x) pos →
    bridgeAt (heap.set pos x) pos →
    isHeap (siftdownLoop heap pos x) := by
  intro pos
  induction pos using Nat.strong_induction_on with
  | _ pos ih =>
    intro heap x hpos hP hB
    unfold siftdownLoop
    dsimp only
    split
    · rename_i hpos0
      have hpp_lt : (pos - 1) / 2 < pos := by omega
      have hpp_len : (pos - 1) / 2 < heap.length := by omega
      have hne_pp_pos : (pos - 1) / 2 ≠ pos := by omega
      have hwpp : (heap.set pos x).getD ((pos - 1) / 2) default =
          heap.getD ((pos - 1) / 2) default := getD_set_ne (fun h => hne_pp_pos h.symm)
      have hwpos : (heap.set pos x).getD pos default = x := getD_set_self hpos
      have hw'pp : ((heap.set pos (heap.getD ((pos - 1) / 2) default)).set
          ((pos - 1) / 2) x).getD ((pos - 1) / 2) default = x :=
        getD_set_set_at hpp_len
      have hw'pos : ((heap.set pos (heap.getD ((pos - 1) / 2) default)).set
          ((pos - 1) / 2) x).getD pos default = heap.getD ((pos - 1) / 2) default :=
        getD_set_set_inner hne_pp_pos hpos
      have hw'other : ∀ k, k ≠ (pos - 1) / 2 → k ≠ pos →
          ((heap.set pos (heap.getD ((pos - 1) / 2) default)).set
            ((pos - 1) / 2) x).getD k default = heap.getD k default :=
        fun k h1 h2 => getD_set_set_other (fun h => h1 h.symm) (fun h => h2 h.symm)
      have hwother : ∀ k, k ≠ pos →
          (heap.set pos x).getD k default = heap.getD k default :=
        fun k h1 => getD_set_ne (fun h => h1 h.symm)
      split
      · rename_i hlt
        have hxlt : x.sortIndex < (heap.getD ((pos - 1) / 2) default).sortIndex :=
          seedLt_iff.mp hlt
        refine ih _ hpp_lt _ x (by simpa using hpp_len) ?_ ?_
        · intro i hi0 hilen hine
          simp only [List.length_set] at hilen
          by_cases hipos : i = pos
          · rw [hipos, hw'pos, hw'pp]
            exact le_of_lt hxlt
          · have hw'i := hw'other i (fun h => hine h) hipos
            by_cases hpi_pos : (i - 1) / 2 = pos
            · have hchild : i = 2 * pos + 1 ∨ i = 2 * pos + 2 := by omega
              have hBi := hB i hchild (by simpa using hilen) hpos0
              rw [hwpp, hwother i hipos] at hBi
              rw [hw'i, hpi_pos, hw'pos]
              exact hBi
            · have hPi := hP i hi0 (by simpa using hilen) hipos
              rw [hwother i hipos] at hPi
              by_cases hpi_pp : (i - 1) / 2 = (pos - 1) / 2
              · rw [hpi_pp, hwpp] at hPi
                rw [hw'i, hpi_pp, hw'pp]
                exact le_trans (le_of_lt hxlt) hPi
              · rw [hwother _ hpi_pos] at hPi
                rw [hw'i, hw'other _ hpi_pp hpi_pos]
                exact hPi
        · intro c hc hclen hpp0
          simp only [List.length_set] at hclen
          have hq_ne_pos : ((pos - 1) / 2 - 1) / 2 ≠ pos := by omega
          have hq_ne_pp : ((pos - 1) / 2 - 1) / 2 ≠ (pos - 1) / 2 := by omega
          have hPpp := hP ((pos - 1) / 2) hpp0 (by simpa using hpp_len) hne_pp_pos
          rw [hwpp, hwother _ hq_ne_pos] at hPpp
          rw [hw'other _ hq_ne_pp hq_ne_pos]
          by_cases hcpos : c = pos
          · rw [hcpos, hw'pos]
            exact hPpp
          · have hcne_pp : c ≠ (pos - 1) / 2 := by omega
            have hc0 : 0 < c := by omega
            have hPc := hP c hc0 (by simpa using hclen) hcpos
            have hpc_eq : (c - 1) / 2 = (pos - 1) / 2 := by omega
            rw [hpc_eq, hwpp, hwother c hcpos] at hPc
            rw [hw'other c hcne_pp hcpos]
            exact le_trans hPpp hPc
      · rename_i hnlt
        intro i hi0 hilen
        simp only [List.length_set] at hilen
        by_cases hipos : i = pos
        · rw [hipos, hwpos, hwpp]
          exact seedLt_false hnlt
        · exact hP i hi0 (by simpa using hilen) hipos
    · rename_i hpos0
      have hpz : pos = 0 := by omega
      subst hpz
      intro i hi0 hilen
      exact hP i hi0 hilen (by omega)

theorem siftup_step_inv (heap : List Seed) (pos c : Nat) (x : Seed)
    (hpos : pos < heap.length) (hc : c = 2 * pos + 1 ∨ c = 2 * pos + 2)
    (hclen : c < heap.length)
    (hmin : ∀ sib, (sib = 2 * pos + 1 ∨ sib = 2 * pos + 2) → sib < heap.length →
      (heap.getD c default).sortIndex ≤ (heap.getD sib default).sortIndex)
    (hQ : heapExceptAt (heap.set pos x) pos)
    (hB : bridgeAt (heap.set pos x) pos) :
    heapExceptAt ((heap.set pos (heap.getD c default)).set c x) c ∧
    bridgeAt ((heap.set pos (heap.getD c default)).set c x) c := by
  have hcpos : c ≠ pos := by omega
  have hw'c : ((heap.set pos (heap.getD c default)).set c x).getD c default = x :=
    getD_set_set_at hclen
  have hw'pos : ((heap.set pos (heap.getD c default)).set c x).getD pos default =
      heap.getD c default := getD_set_set_inner hcpos hpos
  have hw'other : ∀ k, k ≠ c → k ≠ pos →
      ((heap.set pos (heap.getD c default)).set c x).getD k default =
        heap.getD k default :=
    fun k h1 h2 => getD_set_set_other (fun h => h1 h.symm) (fun h => h2 h.symm)
  have hwother : ∀ k, k ≠ pos →
      (heap.set pos x).getD k default = heap.getD k default :=
    fun k h1 => getD_set_ne (fun h => h1 h.symm)
  constructor
  · intro i hi0 hilen hinec hpinec
    simp only [List.length_set] at hilen
    by_cases hipos : i = pos
    · have hpos0 : 0 < pos := by omega
      have hpp_ne_pos : (pos - 1) / 2 ≠ pos := by omega
      have hpp_ne_c : (pos - 1) / 2 ≠ c := by omega
      have hBc := hB c hc (by simpa using hclen) hpos0
      rw [hwother _ hpp_ne_pos, hwother _ hcpos] at hBc
      rw [hipos, hw'pos, hw'other _ hpp_ne_c hpp_ne_pos]
      exact hBc
    · by_cases hpipos : (i - 1) / 2 = pos
      · have hsib : i = 2 * pos + 1 ∨ i = 2 * pos + 2 := by omega
        have hm := hmin i hsib hilen
        rw [hpipos, hw'pos, hw'other i hinec hipos]
        exact hm
      · have hQi := hQ i hi0 (by simpa using hilen) hipos hpipos
        rw [hwother _ hpipos, hwother _ hipos] at hQi
        rw [hw'other _ hpinec hpipos, hw'other i hinec hipos]
        exact hQi
  · intro gc hgc hgclen hc0
    simp only [List.length_set] at hgclen
    have hpc : (c - 1) / 2 = pos := by omega
    have hgc_ne_c : gc ≠ c := by omega
    have hgc_ne_pos : gc ≠ pos := by omega
    have hgc0 : 0 < gc := by omega
    have hpgc : (gc - 1) / 2 = c := by omega
    have hQgc := hQ gc hgc0 (by simpa using hgclen) hgc_ne_pos (by omega)
    rw [hpgc, hwother _ hcpos, hwother _ hgc_ne_pos] at hQgc
    rw [hpc, hw'pos, hw'other gc hgc_ne_c hgc_ne_pos]
    exact hQgc

theorem siftupLoop_isHeap : ∀ (n : Nat) (heap : List Seed) (pos : Nat) (x : Seed),
    pos < heap.length → heap.length - pos ≤ n →
    heapExceptAt (heap.set pos x) pos →
    bridgeAt (heap.set pos x) pos →
    isHeap (siftupLoop heap pos x) := by
  intro n
  induction n with
  | zero =>
    intro heap pos x hpos h hQ hB
    omega
  | succ k ih =>
    intro heap pos x hpos h hQ hB
    unfold siftupLoop
    dsimp only
    split
    · rename_i hchild
      by_cases hcond : 2 * pos + 1 + 1 < heap.length ∧
          ¬ seedLt (heap.getD (2 * pos + 1) default) (heap.getD (2 * pos + 1 + 1) default) = true
      · rw [if_pos hcond]
        have hc : 2 * pos + 1 + 1 = 2 * pos + 1 ∨ 2 * pos + 1 + 1 = 2 * pos + 2 := by omega
        have hmin : ∀ sib, (sib = 2 * pos + 1 ∨ sib = 2 * pos + 2) → sib < heap.length →
            (heap.getD (2 * pos + 1 + 1) default).sortIndex ≤
              (heap.getD sib default).sortIndex := by
          intro sib hsib hsiblen
          rcases hsib with h1 | h1
          · rw [h1]
            exact seedLt_false hcond.2
          · rw [h1]
        obtain ⟨hQ1, hB1⟩ := siftup_step_inv heap pos (2 * pos + 1 + 1) x hpos hc hcond.1 hmin hQ hB
        exact ih _ _ x (by simp only [List.length_set]; omega)
          (by simp only [List.length_set]; omega) hQ1 hB1
      · rw [if_neg hcond]
        have hc : 2 * pos + 1 = 2 * pos + 1 ∨ 2 * pos + 1 = 2 * pos + 2 := Or.inl rfl
        have hmin : ∀ sib, (sib = 2 * pos + 1 ∨ sib = 2 * pos + 2) → sib < heap.length →
            (heap.getD (2 * pos + 1) default).sortIndex ≤
              (heap.getD sib default).sortIndex := by
          intro sib hsib hsiblen
          rcases hsib with h1 | h1
          · rw [h1]
          · rw [h1]
            have hlt : seedLt (heap.getD (2 * pos + 1) default)
                (heap.getD (2 * pos + 1 + 1) default) = true := by
              by_contra hnot
              exact hcond ⟨by omega, hnot⟩
            exact le_of_lt (seedLt_iff.mp hlt)
        obtain ⟨hQ1, hB1⟩ := siftup_step_inv heap pos (2 * pos + 1) x hpos hc hchild hmin hQ hB
        exact ih _ _ x (by simp only [List.length_set]; omega)
          (by simp only [List.length_set]; omega) hQ1 hB1
    · rename_i hchild
      refine siftdownLoop_isHeap pos (heap.set pos x) x (by simpa using hpos) ?_ ?_
      · rw [List.set_set]
        intro i hi0 hilen hine
        simp only [List.length_set] at hilen
        have hpine : (i - 1) / 2 ≠ pos := by omega
        exact hQ i hi0 (by simpa using hilen) hine hpine
      · rw [List.set_set]
        intro c hc hclen hpos0
        simp only [List.length_set] at hclen
        omega

theorem getD_concat_length (l : List Seed) (x d : Seed) :
    (l ++ [x]).getD l.length d = x := by
  rw [List.getD_eq_getElem?_getD]
  simp

theorem heappush_isHeap {l : List Seed} {x : Seed} (h : isHeap l) :
    isHeap (heappush l x) := by
  unfold heappush
  have hW : ∀ i, ((l ++ [x]).set l.length x).getD i default = (l ++ [x]).getD i default := by
    intro i
    by_cases hi : i = l.length
    · rw [hi, getD_set_self (by simp), getD_concat_length]
    · exact getD_set_ne (fun hh => hi hh.symm)
  refine siftdownLoop_isHeap l.length (l ++ [x]) x (by simp) ?_ ?_
  · intro i hi0 hilen hine
    simp only [List.length_set, List.length_append, List.length_cons,
      List.length_nil] at hilen
    have hil : i < l.length := by omega
    have hpil : (i - 1) / 2 < l.length := by omega
    rw [hW, hW, getD_append_left hil, getD_append_left hpil]
    exact h i hi0 hil
  · intro c hc hclen h0
    simp only [List.length_set, List.length_append, List.length_cons,
      List.length_nil] at hclen
    omega

theorem heappop_isHeap {l : List Seed} {s : Seed} {rest : List Seed}
    (h : isHeap l) (hp : heappop l = some (s, rest)) : isHeap rest := by
  match l, hp with
  | [a], hp =>
    have hr : rest = [] := by
      simp only [heappop] at hp
      exact (Prod.mk.injEq _ _ _ _ |>.mp (Option.some.injEq _ _ |>.mp hp)).2.symm
    rw [hr]
    intro i hi0 hilen
    simp at hilen
  | a :: b :: bs, hp =>
    have hr : rest = siftupLoop ((a :: (b :: bs).dropLast).set 0
        ((a :: b :: bs).getLast (List.cons_ne_nil a (b :: bs)))) 0
        ((a :: b :: bs).getLast (List.cons_ne_nil a (b :: bs))) := by
      simp only [heappop] at hp
      exact (Prod.mk.injEq _ _ _ _ |>.mp (Option.some.injEq _ _ |>.mp hp)).2.symm
    rw [hr]
    have hsetlen : ((a :: (b :: bs).dropLast).set 0
        ((a :: b :: bs).getLast (List.cons_ne_nil a (b :: bs)))).length = bs.length + 1 := by
      simp
    refine siftupLoop_isHeap (bs.length + 2) _ 0 _ (by rw [hsetlen]; omega)
      (by rw [hsetlen]; omega) ?_ ?_
    · rw [List.set_set]
      intro i hi0 hilen hine hpine
      simp only [List.length_set] at hilen
      have hgi : ((a :: (b :: bs).dropLast).set 0
          ((a :: b :: bs).getLast (List.cons_ne_nil a (b :: bs)))).getD i default =
          (a :: b :: bs).getD i default := by
        rw [getD_set_ne (fun hh => hine hh.symm)]
        have : (a :: (b :: bs).dropLast) = (a :: b :: bs).dropLast := rfl
        rw [this]
        exact getD_dropLast (by simp only [List.length_cons]; simp at hilen; omega)
      have hgp : ((a :: (b :: bs).dropLast).set 0
          ((a :: b :: bs).getLast (List.cons_ne_nil a (b :: bs)))).getD ((i - 1) / 2) default =
          (a :: b :: bs).getD ((i - 1) / 2) default := by
        rw [getD_set_ne (fun hh => hpine hh.symm)]
        have : (a :: (b :: bs).dropLast) = (a :: b :: bs).dropLast := rfl
        rw [this]
        exact getD_dropLast (by simp only [List.length_cons]; simp at hilen; omega)
      rw [hgi, hgp]
      exact h i hi0 (by simp at hilen ⊢; omega)
    · intro c hc hclen h0
      exact absurd h0 (lt_irrefl 0)

theorem isHeap_root_le {l : List Seed} (h : isHeap l) :
    ∀ i, i < l.length → (l.getD 0 default).sortIndex ≤ (l.getD i default).sortIndex := by
  intro i
  induction i using Nat.strong_induction_on with
  | _ i ih =>
    intro hilen
    rcases Nat.eq_zero_or_pos i with hz | hpos
    · rw [hz]
    · exact le_trans (ih ((i - 1) / 2) (by omega) (by omega)) (h i hpos hilen)

/-! ### Energy bounds -/

theorem speedScore_pos (avgExec t : ℚ) : 0 < speedScore avgExec t := by
  unfold speedScore
  split_ifs <;> norm_num

theorem covFactor_pos (avgCov cv : ℚ) : 0 < covFactor avgCov cv := by
  unfold covFactor
  split_ifs <;> norm_num

theorem decayScore_pos {perf : ℚ} (h : 0 < perf) (k : Nat) : 0 < decayScore perf k := by
  unfold decayScore
  split
  · positivity
  · exact h

theorem calcEnergyValue_pos (st : SchedState) (seed : Seed) :
    0 < calcEnergyValue st seed := by
  unfold calcEnergyValue
  dsimp only
  refine lt_min ?_ (by norm_num)
  exact decayScore_pos (mul_pos (speedScore_pos _ _) (covFactor_pos _ _)) _

theorem calcEnergyValue_le (st : SchedState) (seed : Seed) :
    calcEnergyValue st seed ≤ 10000 := by
  unfold calcEnergyValue
  dsimp only
  exact min_le_right _ _

theorem calcEnergy_seedOk (st : SchedState) (seed : Seed) :
    seedOk (calcEnergy st seed) :=
  ⟨calcEnergyValue_pos st seed, calcEnergyValue_le st seed, rfl⟩

theorem calcEnergy_energy (st : SchedState) (seed : Seed) :
    (calcEnergy st seed).energy = calcEnergyValue st seed := rfl

theorem calcEnergy_execCount (st : SchedState) (seed : Seed) :
    (calcEnergy st seed).execCount = seed.execCount := rfl

theorem calcEnergy_data (st : SchedState) (seed : Seed) :
    (calcEnergy st seed).data = seed.data := rfl

theorem speedScore_self (t : ℚ) : speedScore t t = 100 := by
  unfold speedScore
  split_ifs with h1 h2 h3 h4 h5 h6 h7 h8 <;> first | rfl | nlinarith

theorem covFactor_self (cv : ℚ) : covFactor cv cv = 1 := by
  unfold covFactor
  split_ifs with h1 h2 h3 h4 h5 h6 h7 <;> first | rfl | nlinarith

theorem calcEnergyValue_empty (st : SchedState) (seed : Seed) (h : st.seeds = []) :
    calcEnergyValue st seed = 100 / (1 + (seed.execCount : ℚ) / 5) := by
  unfold calcEnergyValue
  rw [h]
  norm_num [speedScore_self, covFactor_self]
  have hle : (100 : ℚ) / (1 + (1 / 5) * (seed.execCount : ℚ)) ≤ 10000 := by
    have h1 : (1 : ℚ) ≤ 1 + (1 / 5) * (seed.execCount : ℚ) := by
      have hc : (0 : ℚ) ≤ (seed.execCount : ℚ) := Nat.cast_nonneg _
      linarith
    calc (100 : ℚ) / (1 + (1 / 5) * (seed.execCount : ℚ)) ≤ 100 / 1 := by
          apply div_le_div_of_nonneg_left (by norm_num) (by norm_num) h1
      _ ≤ 10000 := by norm_num
  unfold decayScore
  split_ifs with hk
  · rw [min_eq_left hle]
    ring_nf
  · have hk0 : seed.execCount = 0 := by omega
    rw [hk0]
    norm_num

/-! ### Scheduler invariants -/

theorem heappush_nil (x : Seed) : heappush ([] : List Seed) x = [x] := by
  unfold heappush siftdownLoop
  simp

theorem selectNext_eq (st : SchedState) (hne : st.seeds ≠ []) :
    ∃ rest, heappop st.seeds = some (st.seeds.getD 0 default, rest) ∧
      rest.length = st.seeds.length - 1 ∧ (∀ y ∈ rest, y ∈ st.seeds) ∧
      selectNext st = some
        (calcEnergy { st with seeds := rest }
          { st.seeds.getD 0 default with
            execCount := (st.seeds.getD 0 default).execCount + 1 },
         { st with seeds := heappush rest (calcEnergy { st with seeds := rest }
            { st.seeds.getD 0 default with
              execCount := (st.seeds.getD 0 default).execCount + 1 }) }) := by
  obtain ⟨rest, hpop, hlen, hmem⟩ := heappop_of_ne_nil st.seeds hne
  refine ⟨rest, hpop, hlen, hmem, ?_⟩
  unfold selectNext
  rw [hpop]

theorem selectNext_none (st : SchedState) (h : st.seeds = []) : selectNext st = none := by
  unfold selectNext
  rw [h]
  rfl

theorem schedInv_addSeed (st : SchedState) (d : List Nat) (cb et : ℚ)
    (h : schedInv st) : schedInv (addSeed st d cb et) := by
  obtain ⟨hH, hOk, _⟩ := h
  refine ⟨heappush_isHeap hH, ?_, ?_⟩
  · intro s hs
    rcases mem_heappush hs with h1 | h1
    · exact hOk s h1
    · rw [h1]
      exact calcEnergy_seedOk _ _
  · intro s hs
    have hlen : (addSeed st d cb et).seeds.length = st.seeds.length + 1 :=
      length_heappush _ _
    rw [hs] at hlen
    have hnil : st.seeds = [] := List.length_eq_zero.mp (by simpa using hlen.symm)
    have hpush : (addSeed st d cb et).seeds = [calcEnergy
        { st with
          totalExecTime := st.totalExecTime + et
          totalCoverage := st.totalCoverage + cb }
        { sortIndex := -1, data := d, execCount := 0,
          coverageBits := cb, execTime := et, energy := 1 }] := by
      show heappush st.seeds _ = _
      rw [hnil, heappush_nil]
    rw [hpush] at hs
    have hseq : s = calcEnergy
        { st with
          totalExecTime := st.totalExecTime + et
          totalCoverage := st.totalCoverage + cb }
        { sortIndex := -1, data := d, execCount := 0,
          coverageBits := cb, execTime := et, energy := 1 } := by
      simpa using hs.symm
    rw [hseq, calcEnergy_energy, calcEnergy_execCount,
      calcEnergyValue_empty _ _ (by simpa using hnil)]

theorem schedInv_select (st : SchedState) (h : schedInv st) :
    schedInv (schedStep st SchedOp.select) := by
  obtain ⟨hH, hOk, _⟩ := h
  by_cases hnil : st.seeds = []
  · unfold schedStep
    rw [selectNext_none st hnil]
    exact ⟨hH, hOk, fun s hs => absurd (hs ▸ hnil) (by simp)⟩
  · obtain ⟨rest, hpop, hlen, hmem, hsel⟩ := selectNext_eq st hnil
    have hrestH : isHeap rest := heappop_isHeap hH hpop
    unfold schedStep
    rw [hsel]
    refine ⟨heappush_isHeap hrestH, ?_, ?_⟩
    · intro s hs
      rcases mem_heappush hs with h1 | h1
      · exact hOk s (hmem s h1)
      · rw [h1]
        exact calcEnergy_seedOk _ _
    · intro s hs
      have hlen2 : (heappush rest (calcEnergy { st with seeds := rest }
          { st.seeds.getD 0 default with
            execCount := (st.seeds.getD 0 default).execCount + 1 })).length =
          rest.length + 1 := length_heappush _ _
      rw [show (heappush rest (calcEnergy { st with seeds := rest }
          { st.seeds.getD 0 default with
            execCount := (st.seeds.getD 0 default).execCount + 1 })) = [s] from hs] at hlen2
    -- rest must be empty
      have hrestnil : rest = [] := List.length_eq_zero.mp (by simpa using hlen2.symm)
      have hpush : heappush rest (calcEnergy { st with seeds := rest }
          { st.seeds.getD 0 default with
            execCount := (st.seeds.getD 0 default).execCount + 1 }) =
          [calcEnergy { st with seeds := rest }
            { st.seeds.getD 0 default with
              execCount := (st.seeds.getD 0 default).execCount + 1 }] := by
        rw [hrestnil, heappush_nil]
      rw [hpush] at hs
      have hseq : s = calcEnergy { st with seeds := rest }
          { st.seeds.getD 0 default with
            execCount := (st.seeds.getD 0 default).execCount + 1 } := by
        simpa using hs.symm
      rw [hseq, calcEnergy_energy, calcEnergy_execCount,
        calcEnergyValue_empty _ _ (by simpa using hrestnil)]

theorem schedInv_step (st : SchedState) (op : SchedOp) (h : schedInv st) :
    schedInv (schedStep st op) := by
  cases op with
  | add d cb et => exact schedInv_addSeed st d cb et h
  | select => exact schedInv_select st h

theorem schedInv_init : schedInv initSched := by
  refine ⟨?_, ?_, ?_⟩
  · intro i hi0 hilen
    simp [initSched] at hilen
  · intro s hs
    simp [initSched] at hs
  · intro s hs
    simp [initSched] at hs

theorem schedInv_runSched (ops : List SchedOp) : schedInv (runSched ops) := by
  unfold runSched
  have : ∀ (l : List SchedOp) (st : SchedState), schedInv st → schedInv (l.foldl schedStep st) := by
    intro l
    induction l with
    | nil => intro st h; exact h
    | cons op l ih =>
      intro st h
      exact ih _ (schedInv_step st op h)
  exact this ops initSched schedInv_init

/-! ### The one-seed scheduler in closed form -/

theorem heappop_solo (n : Nat) : heappop (soloState n).seeds = some (soloSeed n, []) := rfl

theorem selectNext_solo (n : Nat) :
    selectNext (soloState n) = some (soloSeed (n + 1), soloState (n + 1)) := by
  unfold selectNext
  rw [heappop_solo]
  dsimp only [soloState, soloSeed]
  unfold calcEnergy
  rw [calcEnergyValue_empty _ _ rfl, heappush_nil]

theorem schedStep_add_solo :
    schedStep initSched (SchedOp.add [7] 0 0) = soloState 0 := by
  unfold schedStep addSeed initSched
  dsimp only
  have hval : calcEnergyValue
      { seeds := ([] : List Seed), totalExecTime := 0 + 0, totalCoverage := 0 + 0 }
      { sortIndex := -1, data := [7], execCount := 0,
        coverageBits := 0, execTime := 0, energy := 1 } =
      100 / (1 + ((0 : Nat) : ℚ) / 5) := calcEnergyValue_empty _ _ rfl
  have hseed : calcEnergy
      { seeds := ([] : List Seed), totalExecTime := 0 + 0, totalCoverage := 0 + 0 }
      { sortIndex := -1, data := [7], execCount := 0,
        coverageBits := 0, execTime := 0, energy := 1 } = soloSeed 0 := by
    unfold calcEnergy
    rw [hval]
    rfl
  rw [hseed, heappush_nil]
  unfold soloState
  norm_num

theorem runSolo (n : Nat) :
    runSched (SchedOp.add [7] 0 0 :: List.replicate n SchedOp.select) = soloState n := by
  have hfold : ∀ (m k : Nat),
      (List.replicate m SchedOp.select).foldl schedStep (soloState k) = soloState (k + m) := by
    intro m
    induction m with
    | zero => intro k; rfl
    | succ j ih =>
      intro k
      rw [List.replicate_succ, List.foldl_cons]
      have hstep : schedStep (soloState k) SchedOp.select = soloState (k + 1) := by
        unfold schedStep
        rw [selectNext_solo]
      rw [hstep, ih]
      congr 1
      omega
  unfold runSched
  rw [List.foldl_cons, schedStep_add_solo]
  simpa using hfold n 0

/-! ### Scheduler claims -/

/-- Claim C2: the claim as amended.  After any sequence of `add_seed`
and `select_next` calls, every stored seed's energy lies in the interval
`(0, 10000]` — the code caps the score only from above
(`min(perf_score, 10000.0)`); there is no lower clamp at 1 — and energy
is assigned by `_calculate_energy` from the aggregates at (re)insertion
time; for a one-seed scheduler this gives exactly
`100 / (1 + 0.2 * exec_count)`, which falls below 1 once the seed has
been selected often enough. -/
theorem claim_C2_amended :
    (∀ (ops : List SchedOp), ∀ s ∈ (runSched ops).seeds,
      0 < s.energy ∧ s.energy ≤ 10000) ∧
    (∀ (ops : List SchedOp) (s : Seed), (runSched ops).seeds = [s] →
      s.energy = 100 / (1 + (s.execCount : ℚ) / 5)) := by
  constructor
  · intro ops s hs
    obtain ⟨h1, h2, _⟩ := (schedInv_runSched ops).2.1 s hs
    exact ⟨h1, h2⟩
  · intro ops s hs
    exact (schedInv_runSched ops).2.2 s hs

/-- Claim C2: witness at the scheduler holding the single freshly added
seed, whose energy is 100. -/
theorem claim_C2_witness :
    (0 < (soloSeed 0).energy ∧ (soloSeed 0).energy ≤ 10000) ∧
    (soloSeed 0).energy = 100 / (1 + ((soloSeed 0).execCount : ℚ) / 5) := by
  have hrun : (runSched [SchedOp.add [7] 0 0]).seeds = [soloSeed 0] := by
    have h0 := runSolo 0
    simpa using congrArg SchedState.seeds h0
  exact ⟨claim_C2_amended.1 [SchedOp.add [7] 0 0] (soloSeed 0) (by rw [hrun]; simp),
    claim_C2_amended.2 [SchedOp.add [7] 0 0] (soloSeed 0) hrun⟩

/-- Claim C2: counterexample to the claim as stated.  After adding one
seed and selecting it 496 times its energy is `500/501 < 1`, outside the
claimed interval `[1, 10000]`: `_calculate_energy` never clamps from
below. -/
theorem claim_C2_counterexample :
    ((runSched (SchedOp.add [7] 0 0 :: List.replicate 496 SchedOp.select)).seeds.map
      (fun s => s.energy)) = [500 / 501] ∧ ¬ ((1 : ℚ) ≤ 500 / 501) := by
  constructor
  · rw [runSolo 496]
    show [(soloSeed 496).energy] = [500 / 501]
    norm_num [soloSeed]
  · norm_num

/-- Claim C8: the claim as amended.  The scheduler maintains a CPython
`heapq` binary heap keyed on energy via `sort_index = -energy` (every
entry's energy is bounded by its parent's), and `select_next` pops the
root — a seed of maximum energy among all stored seeds — increments its
`exec_count`, recomputes its energy against the remaining heap, and
reinserts it.  The recomputed energy is not strictly lower in general —
other seeds shift the running averages, so a seed stored at 100 can be
recomputed to 125 (see the counterexample) — but for a one-seed
scheduler, where the averages cannot move, it is strictly lower; and in
the concrete scenario pushing `(cov=10, time=1.0)` then
`(cov=10, time=0.001)` the first pop returns the fast seed.  Ties between
equal energies follow the heap's array order, not the insertion index
(see the counterexample). -/
theorem claim_C8_amended :
    (∀ ops : List SchedOp, isHeap (runSched ops).seeds ∧
      ∀ i, 0 < i → i < (runSched ops).seeds.length →
        ((runSched ops).seeds.getD i default).energy ≤
          ((runSched ops).seeds.getD ((i - 1) / 2) default).energy) ∧
    (∀ ops : List SchedOp, (runSched ops).seeds ≠ [] →
      ∃ rest,
        heappop (runSched ops).seeds =
          some ((runSched ops).seeds.getD 0 default, rest) ∧
        (∀ s ∈ (runSched ops).seeds,
          s.energy ≤ ((runSched ops).seeds.getD 0 default).energy) ∧
        selectNext (runSched ops) = some
          (calcEnergy { runSched ops with seeds := rest }
            { (runSched ops).seeds.getD 0 default with
              execCount := ((runSched ops).seeds.getD 0 default).execCount + 1 },
           { runSched ops with
             seeds :=
               heappush rest
                 (calcEnergy { runSched ops with seeds := rest }
                   { (runSched ops).seeds.getD 0 default with
                     execCount := ((runSched ops).seeds.getD 0 default).execCount + 1 }) })) ∧
    (∀ (ops : List SchedOp) (s sel : Seed) (st' : SchedState),
      (runSched ops).seeds = [s] →
      selectNext (runSched ops) = some (sel, st') → sel.energy < s.energy) ∧
    ((selectNext (runSched [SchedOp.add [1] 10 1, SchedOp.add [2] 10 (1 / 1000)])).map
      (fun p => p.1.data) = some [2]) := by
  refine ⟨?_, ?_, ?_, ?_⟩
  · intro ops
    obtain ⟨hH, hOk, _⟩ := schedInv_runSched ops
    refine ⟨hH, ?_⟩
    intro i hi0 hilen
    have hedge := hH i hi0 hilen
    have hpar_len : (i - 1) / 2 < (runSched ops).seeds.length := by omega
    obtain ⟨_, _, hs1⟩ := hOk _ (getD_mem hilen)
    obtain ⟨_, _, hs2⟩ := hOk _ (getD_mem hpar_len)
    rw [hs1, hs2] at hedge
    linarith
  · intro ops hne
    obtain ⟨hH, hOk, _⟩ := schedInv_runSched ops
    obtain ⟨rest, hpop, hlen, hmem, hsel⟩ := selectNext_eq (runSched ops) hne
    refine ⟨rest, hpop, ?_, hsel⟩
    intro s hs
    obtain ⟨i, hi, hieq⟩ := List.getElem_of_mem hs
    have hgi : (runSched ops).seeds.getD i default = s := by
      rw [List.getD_eq_getElem?_getD, List.getElem?_eq_getElem hi]
      exact hieq
    have hroot := isHeap_root_le hH i hi
    rw [hgi] at hroot
    have hrootlen : 0 < (runSched ops).seeds.length := by
      cases hl : (runSched ops).seeds with
      | nil => exact absurd hl hne
      | cons a l => simp [hl]
    obtain ⟨_, _, hsort_s⟩ := hOk s hs
    obtain ⟨_, _, hsort_r⟩ := hOk _ (getD_mem hrootlen)
    rw [hsort_s, hsort_r] at hroot
    linarith
  · intro ops s sel st' hs hsel'
    obtain ⟨_, _, hSolo⟩ := schedInv_runSched ops
    have hsE := hSolo s hs
    have hne : (runSched ops).seeds ≠ [] := by rw [hs]; simp
    obtain ⟨rest, hpop, hlen, hmem, hsel⟩ := selectNext_eq (runSched ops) hne
    rw [hsel'] at hsel
    have hpair := Option.some.inj hsel
    have hselc : sel = calcEnergy { runSched ops with seeds := rest }
        { (runSched ops).seeds.getD 0 default with
          execCount := ((runSched ops).seeds.getD 0 default).execCount + 1 } :=
      congrArg Prod.fst hpair
    have hrest : rest = [] := by
      apply List.length_eq_zero.mp
      rw [hlen, hs]
      rfl
    have hg0 : (runSched ops).seeds.getD 0 default = s := by
      rw [hs]
      rfl
    rw [hselc, calcEnergy_energy,
      calcEnergyValue_empty _ _ (by rw [hrest]), hg0, hsE]
    have hc : (1 : ℚ) + (s.execCount : ℚ) / 5 < 1 + ((s.execCount + 1 : Nat) : ℚ) / 5 := by
      push_cast
      linarith
    have hpos : (0 : ℚ) < 1 + (s.execCount : ℚ) / 5 := by positivity
    exact div_lt_div_of_pos_left (by norm_num) hpos hc
  · with_unfolding_all decide

/-- Claim C8: witness for the strict decay clause at the one-seed
scheduler: re-selecting the sole seed lowers its energy from 100 to
`100 / 1.2`. -/
theorem claim_C8_witness : (soloSeed 1).energy < (soloSeed 0).energy := by
  have hrun : runSched [SchedOp.add [7] 0 0] = soloState 0 := by
    simpa using runSolo 0
  refine claim_C8_amended.2.2.1 [SchedOp.add [7] 0 0] (soloSeed 0) (soloSeed 1)
    (soloState 1) ?_ ?_
  · rw [hrun]
    rfl
  · rw [hrun]
    exact selectNext_solo 0

/-- Claim C8: counterexample to the claim as stated, refuting two of its
clauses.  First, the tie-break: push four seeds of equal energy with data
`a = [97]`, `b = [98]`, `c = [99]`, `d = [100]` in that order;
tie-breaking on insertion index would make the second selection return
`b`, but the heap's array order makes it return `c`.  Second, the strict
decay of the recomputed energy: add a seed `A = [1]` with
`(cov=10, time=1.0)` (stored energy 100), then a seed `B = [2]` with
`(cov=1, time=1.0)`; the running averages drop to `(1.0, 5.5)`, so
selecting `A` recomputes it in the `×1.5` coverage band at
`150 / 1.2 = 125 > 100` — repeated selection does not monotonically
decrease a seed's priority once other seeds shift the aggregates. -/
theorem claim_C8_counterexample :
    (((selectNext (runSched [SchedOp.add [97] 0 0, SchedOp.add [98] 0 0,
        SchedOp.add [99] 0 0, SchedOp.add [100] 0 0])).bind
      (fun p => selectNext p.2)).map (fun p => p.1.data) = some [99] ∧
    ([99] : List Nat) ≠ [98]) ∧
    (((runSched [SchedOp.add [1] 10 1, SchedOp.add [2] 1 1]).seeds.map
        (fun s => (s.data, s.energy))) = [([1], 100), ([2], 25)] ∧
      ((selectNext (runSched [SchedOp.add [1] 10 1, SchedOp.add [2] 1 1])).map
        (fun p => (p.1.data, p.1.energy))) = some ([1], 125) ∧
      ¬ ((125 : ℚ) ≤ 100)) := by
  refine ⟨⟨?_, ?_⟩, ?_, ?_, ?_⟩
  · with_unfolding_all decide
  · decide
  · with_unfolding_all decide
  · with_unfolding_all decide
  · norm_num

end ATFuzz
